import Mathlib

/-!
Shallow embedding of the `oom` competition pipeline (`competition.go`,
`webfunc.go`).  Go strings are modelled as `List Char` (the pages are ASCII,
so byte indexes and character indexes coincide), Go `-1` index results as
`Option Nat`, and every Go panic, `log.Fatal` or `os.Exit` as `Option.none`.
File contents are modelled as lists of lines (the CRLF line discipline of the
cache files is carried by the line list).
-/

namespace OOM

/-- Go `strings.Index s tok`: index of the first occurrence of `tok` in `s`
    (`none` models Go's `-1`; `Index s "" = 0`). -/
def strIndex : List Char → List Char → Option Nat
  | [], tok => if tok = [] then some 0 else none
  | c :: t, tok =>
      match tok.isPrefixOf (c :: t) with
      | true => some 0
      | false => (strIndex t tok).map (· + 1)

/-- Go `strings.LastIndex s c` for a one-character needle: index of the last
    occurrence of the character (`none` models `-1`). -/
def lastIdxChar : List Char → Char → Option Nat
  | [], _ => none
  | x :: t, c =>
      match lastIdxChar t c with
      | some j => some (j + 1)
      | none => if x = c then some 0 else none

/-- Go slice `s[a:b]` (for `0 ≤ a ≤ b ≤ len s`, which callers check). -/
def slice (s : List Char) (a b : Nat) : List Char := (s.take b).drop a

/-- `start+1` where `start` is a Go index that may be `-1` (`none`):
    `-1 + 1 = 0`. -/
def idx1 : Option Nat → Nat
  | none => 0
  | some i => i + 1

/-- ASCII whitespace trimmed by Go `strings.TrimSpace` on these pages. -/
def isSpaceChar (c : Char) : Bool := c = ' ' || c = '\t' || c = '\n' || c = '\r'

/-- Go `strings.TrimSpace` (ASCII fragment relevant to this program). -/
def trimSpace (l : List Char) : List Char :=
  ((l.dropWhile isSpaceChar).reverse.dropWhile isSpaceChar).reverse

/-- Go `strings.Split s ","`: always returns at least one field. -/
def splitComma : List Char → List (List Char)
  | [] => [[]]
  | c :: t =>
      match splitComma t with
      | [] => [[]]
      | h :: r => if c = ',' then [] :: h :: r else (c :: h) :: r

/-- Decimal digit test, as in `competition.go`'s `endInt`. -/
def isDigitChar (c : Char) : Bool := '0' ≤ c && c ≤ '9'

/-- Numeric value of a decimal digit character. -/
def digVal (c : Char) : Nat := c.toNat - 48

/-- Value of a nonempty all-digit string; `none` on the first non-digit
    (models the error of Go `strconv.Atoi` after sign handling). -/
def digitsValAux : List Char → Nat → Option Nat
  | [], acc => some acc
  | c :: t, acc =>
      if isDigitChar c then digitsValAux t (acc * 10 + digVal c) else none

/-- `digitsValAux` demanding at least one digit, as `strconv.Atoi` does. -/
def digitsVal : List Char → Option Nat
  | [] => none
  | l => digitsValAux l 0

/-- Go `strconv.Atoi`: optional sign then decimal digits.  (Overflow of the
    64-bit range is not modelled; no value in this program approaches it.) -/
def atoi (l : List Char) : Option Int :=
  match l with
  | [] => none
  | c :: t =>
      if c = '+' then (digitsVal t).map Int.ofNat
      else if c = '-' then (digitsVal t).map (fun n => -(n : Int))
      else (digitsVal (c :: t)).map Int.ofNat

/-- Go `v, _ = strconv.Atoi s`: the error is ignored, leaving `0`. -/
def atoiOr0 (l : List Char) : Int := (atoi l).getD 0

/-- Decimal digit character of `d < 10`. -/
def digitChar (d : Nat) : Char := Char.ofNat (48 + d)

/-- Decimal rendering of a natural number (fuelled; `natToChars` supplies
    enough fuel). -/
def natToCharsAux : Nat → Nat → List Char
  | 0, _ => []
  | fuel + 1, n =>
      if n < 10 then [digitChar n]
      else natToCharsAux fuel (n / 10) ++ [digitChar (n % 10)]

/-- Go `fmt` `%v` rendering of a natural number. -/
def natToChars (n : Nat) : List Char := natToCharsAux (n + 1) n

/-- Go `fmt` `%v` rendering of an `int`. -/
def intChars (i : Int) : List Char :=
  if i < 0 then '-' :: natToChars i.natAbs else natToChars i.natAbs

/-- Go `fmt` width padding (`%10v` etc.): left-pad with spaces to width `w`. -/
def padLeft (w : Nat) (l : List Char) : List Char :=
  List.replicate (w - l.length) ' ' ++ l

/-- `PlayerResult` of `competition.go`. -/
structure PlayerResult where
  Name : List Char
  OOMPoints : Int
  Rank : Int
  Result : List Char
deriving DecidableEq

/-- `Competition` of `competition.go`.  The Go `map[string]PlayerResult`
    `Results` (keyed by player name) is modelled as an insertion-ordered
    association list with unique names. -/
structure Competition where
  Key : List Char
  Name : List Char
  Date : List Char
  URL : List Char
  NumPlayers : Int
  Results : List PlayerResult
deriving DecidableEq

/-- Go map assignment `m[p.Name] = p`: replace in place, else append. -/
def mapInsert (m : List PlayerResult) (p : PlayerResult) : List PlayerResult :=
  if m.any (fun q => q.Name = p.Name) then
    m.map (fun q => if q.Name = p.Name then p else q)
  else m ++ [p]

/-- Go map read `m[name]`. -/
def mapLookup (m : List PlayerResult) (nm : List Char) : Option PlayerResult :=
  m.find? (fun q => q.Name = nm)

/-- Row-start marker of the standard layout. -/
def playeridTok : List Char := "?playerid=".toList

/-- Row-start marker of the championship layout. -/
def namecolTok : List Char := "class=\"namecol\">".toList

/-- Name terminator searched first by `playerDetail`. -/
def aCloseTok : List Char := "</a>".toList

/-- Result terminator of the standard layout. -/
def aTdTok : List Char := "</a></td>".toList

/-- Result terminator of the championship layout. -/
def tdTrTok : List Char := "</td></tr>".toList

/-- Suffix stripped from championship results. -/
def spanTok : List Char := "</span>".toList

/-- The literal no-score display token. -/
def nbspTok : List Char := "&nbsp;".toList

/-- The no-score status it is normalized to. -/
def nsTok : List Char := "NS".toList

/-- `playerDetail` of `competition.go` (standard layout): name between the
    first `>` and the following `</a>`; result after the last `>` before the
    terminator `</a></td>`.  `none` models the Go slice panics on malformed
    input (`-1` from an `Index` used as a slice bound, or `start+1 > end`). -/
def playerDetail (s : List Char) : Option (List Char × List Char) :=
  match strIndex s aCloseTok with
  | none => none
  | some e =>
      let a := idx1 (strIndex s ['>'])
      if a ≤ e then
        let name := slice s a e
        let s1 := s.drop e
        match strIndex s1 aTdTok with
        | none => none
        | some t =>
            let s2 := s1.take t
            some (name, s2.drop (idx1 (lastIdxChar s2 '>')))
      else none

/-- The Go computation `end := Index(s, "<"); end2 := Index(s, "(");
    if end2 != -1 && end2 < end { end = end2 }` of `champDetail`.  When `<`
    is absent Go keeps `end = -1` (then the name slice panics) even if `(`
    occurs. -/
def champNameEnd (s : List Char) : Option Nat :=
  match strIndex s ['<'], strIndex s ['('] with
  | none, _ => none
  | some j, none => some j
  | some j, some k => some (if k < j then k else j)

/-- `champDetail` of `competition.go` (championship layout).  `none` models
    the Go slice panics, and the explicit `os.Exit(1)` when the terminator
    `</td></tr>` is missing.  Note `s[len(s)-7:]` panics when the body before
    the terminator is shorter than 7 characters. -/
def champDetail (s : List Char) : Option (List Char × List Char) :=
  match champNameEnd s with
  | none => none
  | some e =>
      let a := idx1 (strIndex s ['>'])
      if a ≤ e then
        let name := trimSpace (slice s a e)
        let s1 := s.drop e
        match strIndex s1 tdTrTok with
        | none => none
        | some t =>
            let s2 := s1.take t
            if s2.length < 7 then none
            else
              let s3 := if s2.drop (s2.length - 7) = spanTok
                        then s2.take (s2.length - 7) else s2
              let score := s3.drop (idx1 (lastIdxChar s3 '>'))
              some (name, if score = nbspTok then nsTok else score)
      else none

/-- `compSplitFunc`/`champSplitFunc` driven by `bufio.Scanner`: each token is
    the text before the next occurrence of the marker, and the cut consumes
    one character (`advance = i + 1`), so the marker minus its first character
    starts the next token; the final token is the remaining data (no token
    when it is empty). -/
def splitAux (marker : List Char) : Nat → List Char → List (List Char)
  | 0, _ => []
  | fuel + 1, data =>
      if data = [] then []
      else
        match strIndex data marker with
        | some i => data.take i :: splitAux marker fuel (data.drop (i + 1))
        | none => [data]

/-- All scanner tokens of a results page for a given row-start marker. -/
def splitTokens (marker : List Char) (data : List Char) : List (List Char) :=
  splitAux marker (data.length + 1) data

/-- Layout detection of `populateResultsFromWeb`: the marker `?playerid=`
    selects the standard layout. -/
def pageIsStd (data : List Char) : Bool := (strIndex data playeridTok).isSome

/-- Row-start marker chosen for the page. -/
def pageMarker (data : List Char) : List Char :=
  if pageIsStd data then playeridTok else namecolTok

/-- Token extractor chosen for the page. -/
def pageDetail (data : List Char) : List Char → Option (List Char × List Char) :=
  if pageIsStd data then playerDetail else champDetail

/-- The per-player fragments: every scanner token after the first (the page
    header before the first marker is scanned and discarded). -/
def pageFrags (data : List Char) : List (List Char) :=
  (splitTokens (pageMarker data) data).tail

/-- The scan loop of `populateResultsFromWeb`: one `PlayerResult` per
    fragment, `Rank` set to the running player count (1-based position);
    `none` if any extraction dies. -/
def mkPlayers (detail : List Char → Option (List Char × List Char)) :
    List (List Char) → Nat → Option (List PlayerResult)
  | [], _ => some []
  | f :: t, rk =>
      match detail f with
      | none => none
      | some (nm, sc) =>
          (mkPlayers detail t (rk + 1)).map
            (fun r => { Name := nm, OOMPoints := 0, Rank := (rk : Int) + 1,
                        Result := sc } :: r)

/-- The scoring loop of `populateResultsFromWeb`:
    `p.OOMPoints = numPlayers - n`, forced to `0` when `strconv.Atoi` fails
    on the raw result. -/
def scoreAux (numPlayers : Nat) : Nat → List PlayerResult → List PlayerResult
  | _, [] => []
  | n, p :: t =>
      { p with OOMPoints := if (atoi p.Result).isSome
                            then (numPlayers : Int) - (n : Int) else 0 } ::
        scoreAux numPlayers (n + 1) t

/-- Points assignment over the whole parsed list. -/
def scorePlayers (numPlayers : Nat) (res : List PlayerResult) :
    List PlayerResult := scoreAux numPlayers 0 res

/-- `populateResultsFromWeb` of `competition.go`, with the page bytes already
    fetched (the `MustFetch` call is performed — and counted — by `Load`).
    Sets `NumPlayers` to the number of fragments after the discarded header
    and `Results` to the scored players keyed by name. -/
def populateResultsFromWeb (comp : Competition) (data : List Char) :
    Option Competition :=
  (mkPlayers (pageDetail data) (pageFrags data) 0).map (fun res =>
    let n := (pageFrags data).length
    { comp with NumPlayers := (n : Int),
                Results := (scorePlayers n res).foldl mapInsert [] })

/-- Skipping of leading `#` comment lines in `readCached`.  The Go code
    indexes `scanner.Text()[0:1]`, which panics on an empty line, and
    `scanner.Text()` is `""` when the file has no further line. -/
def skipComments : List (List Char) → Option (List (List Char))
  | [] => none
  | l :: rest =>
      if h : l = [] then none
      else if l.head (by simpa using h) = '#' then skipComments rest
      else some (l :: rest)

/-- `strings.TrimSpace(strings.Split(line, ",")[1])`: `none` models the index
    panic when the line has no comma. -/
def field2 (l : List Char) : Option (List Char) :=
  match splitComma l with
  | _ :: x :: _ => some (trimSpace x)
  | _ => none

/-- One player row of the cache file: `oom_points, rank, result, name`
    (fields past the fourth are ignored by the Go indexing); `none` models
    the index panic when fewer than four fields are present. -/
def parseRow (row : List Char) : Option PlayerResult :=
  match splitComma row with
  | f0 :: f1 :: f2 :: f3 :: _ =>
      some { Name := trimSpace f3, OOMPoints := atoiOr0 (trimSpace f0),
             Rank := atoiOr0 (trimSpace f1), Result := trimSpace f2 }
  | _ => none

/-- The row loop of `readCached`: each row is inserted into the results map
    keyed by its name. -/
def readRows : List (List Char) → List PlayerResult → Option (List PlayerResult)
  | [], acc => some acc
  | r :: t, acc =>
      match parseRow r with
      | none => none
      | some p => readRows t (mapInsert acc p)

/-- `readCached` of `competition.go`, on the cache file's lines: header
    fields `key`, `name`, `date`, `url`, `number of players`, one ignored
    header row, then one row per player.  Every field of the `Competition`
    is set from the file.  With exactly five lines the ignored header-row
    scan fails silently and the competition has no players, as in Go. -/
def readCachedLines (lines : List (List Char)) : Option Competition := do
  let ls ← skipComments lines
  match ls with
  | l1 :: l2 :: l3 :: l4 :: l5 :: rest =>
      let key ← field2 l1
      let name ← field2 l2
      let date ← field2 l3
      let url ← field2 l4
      let np ← field2 l5
      let rs ← readRows (rest.drop 1) []
      pure { Key := key, Name := name, Date := date, URL := url,
             NumPlayers := atoiOr0 np, Results := rs }
  | _ => none

/-- One player row written by `saveComp`:
    `fmt.Sprintf("%10v, %12v, %8v, %v, %s", points, rank, result, name, eol)`,
    so the line content ends with `, `. -/
def rowLine (p : PlayerResult) : List Char :=
  padLeft 10 (intChars p.OOMPoints) ++ ", ".toList ++
  padLeft 12 (intChars p.Rank) ++ ", ".toList ++
  padLeft 8 p.Result ++ ", ".toList ++ p.Name ++ ", ".toList

/-- `saveComp` of `competition.go`: the lines of the cache file it writes
    when the results map's range order visits the entries in insertion
    order (each line is terminated by `\r\n` in the file).  Go's
    `for _, p := range comp.Results` iterates the map in an unspecified,
    randomized order; `saveCompLinesOrd` makes that order explicit. -/
def saveCompLines (c : Competition) : List (List Char) :=
  ("key, ".toList ++ c.Key) ::
  ("name, ".toList ++ c.Name) ::
  ("date, ".toList ++ c.Date) ::
  ("url, ".toList ++ c.URL) ::
  ("number of players, ".toList ++ intChars c.NumPlayers) ::
  "oom_points, rank_in_comp, igresult, name - row per player".toList ::
  c.Results.map rowLine

/-- `saveComp` with the results map's range order made explicit: the rows
    are written in the order the `for _, p := range comp.Results` loop
    visits the map entries, which Go randomizes per iteration — any
    permutation `rows` of the entries is admissible. -/
def saveCompLinesOrd (c : Competition) (rows : List PlayerResult) :
    List (List Char) :=
  ("key, ".toList ++ c.Key) ::
  ("name, ".toList ++ c.Name) ::
  ("date, ".toList ++ c.Date) ::
  ("url, ".toList ++ c.URL) ::
  ("number of players, ".toList ++ intChars c.NumPlayers) ::
  "oom_points, rank_in_comp, igresult, name - row per player".toList ::
  rows.map rowLine

theorem saveCompLinesOrd_insertion (c : Competition) :
    saveCompLinesOrd c c.Results = saveCompLines c := rfl

/-- The per-competition cache files on disk: `<key>.txt` contents, keyed by
    competition key, each file a list of lines. -/
abbrev FileStore := List (List Char × List (List Char))

/-- Read the cache file `<key>.txt` if present. -/
def readFile (fs : FileStore) (key : List Char) : Option (List (List Char)) :=
  (fs.find? (fun f => f.1 = key)).map (fun f => f.2)

/-- `os.Create` + write: unconditionally overwrite `<key>.txt`. -/
def writeFile (fs : FileStore) (key : List Char) (content : List (List Char)) :
    FileStore :=
  if fs.any (fun f => f.1 = key) then
    fs.map (fun f => if f.1 = key then (key, content) else f)
  else fs ++ [(key, content)]

/-- `Load` of `competition.go`.  Returns the populated competition, the file
    store after the call, and the number of network fetches performed.
    `web` is the `MustFetch` capability (url ↦ page bytes); a `none` result
    models `log.Fatal` (empty key, or a parse death). -/
def Load (fs : FileStore) (web : List Char → List Char) (comp : Competition) :
    Option (Competition × FileStore × Nat) :=
  if comp.Key = [] then none
  else
    match readFile fs comp.Key with
    | some lines => (readCachedLines lines).map (fun c => (c, fs, 0))
    | none =>
        (populateResultsFromWeb comp (web comp.URL)).map (fun c =>
          (c, writeFile fs c.Key (saveCompLines c), 1))

/-- `tokenStart` of `competition.go`: index just after the first occurrence
    of `tok` (`none` models `-1`). -/
def tokenStart (s : List Char) (tok : List Char) : Option Nat :=
  (strIndex s tok).map (· + tok.length)

/-- `tokenEnd` of `competition.go`: index of the first occurrence of
    `terminator` at or after `start`. -/
def tokenEnd (s : List Char) (start : Nat) (terminator : List Char) :
    Option Nat :=
  (strIndex (s.drop start) terminator).map (· + start)

/-- Go map assignment `ret[compid] = c` on the listing map, keyed by `Key`:
    modelled like `mapInsert`. -/
def compInsert (m : List Competition) (c : Competition) : List Competition :=
  if m.any (fun q => q.Key = c.Key) then
    m.map (fun q => if q.Key = c.Key then c else q)
  else m ++ [c]

/-- Listing map read `m[key]`. -/
def compLookup (m : List Competition) (k : List Char) : Option Competition :=
  m.find? (fun q => q.Key = k)

/-- The listing-page marker `?compid=`. -/
def compidTok : List Char := "?compid=".toList

/-- The `">` token bounding a competition name in the listing. -/
def quoteGtTok : List Char := "\">".toList

/-- Base URL built for each listing entry by `parseWebComps`. -/
def compURLBase : List Char :=
  "http://www.colchestergolfclub.com/competition.php?compid=".toList

/-- The `<td>` opening token bounding a date in the listing. -/
def tdOpenTok : List Char := "<td>".toList

/-- The `</td>` closing token bounding a date in the listing. -/
def tdCloseTok : List Char := "</td>".toList

/-- One iteration step plus loop of `parseWebComps`: recover identifier
    (digits up to the closing quote), then the anchor text as name, then
    the next `<td>...</td>` as date.  `none` models the Go slice panics
    when a terminator is missing mid-entry, and fuel exhaustion (which
    `parseWebComps` supplies enough fuel to avoid). -/
def parseWebCompsAux : Nat → List Char → List Competition →
    Option (List Competition)
  | 0, _, _ => none
  | fuel + 1, compstr, acc =>
      match tokenStart compstr compidTok with
      | none => some acc
      | some start =>
          (tokenEnd compstr start ['"']).bind (fun e1 =>
            (tokenStart (compstr.drop e1) quoteGtTok).bind (fun st2 =>
              (tokenEnd (compstr.drop e1) st2 aCloseTok).bind (fun e2 =>
                (tokenStart ((compstr.drop e1).drop e2) tdOpenTok).bind
                  (fun st3 =>
                    (tokenEnd ((compstr.drop e1).drop e2) st3 tdCloseTok).bind
                      (fun e3 =>
                        parseWebCompsAux fuel (((compstr.drop e1).drop e2).drop e3)
                          (compInsert acc
                            { Key := slice compstr start e1,
                              Name := slice (compstr.drop e1) st2 e2,
                              Date := slice ((compstr.drop e1).drop e2) st3 e3,
                              URL := compURLBase ++ slice compstr start e1,
                              NumPlayers := 0, Results := [] }))))))

/-- `parseWebComps` of `competition.go`: the listing map keyed by
    competition id. -/
def parseWebComps (s : List Char) : Option (List Competition) :=
  parseWebCompsAux (s.length + 1) s []

/-- `endInt` of `competition.go`: first index at or after `start` holding a
    non-digit (or the end of the string). -/
def endInt (s : List Char) (start : Nat) : Nat :=
  start + ((s.drop start).takeWhile isDigitChar).length

/-- `parseNextCompKey` of `competition.go`: the digit run following the next
    `?compid=`; `none` models the `("", -1)` not-found return.  The returned
    key may still be empty when no digit follows the marker. -/
def parseNextCompKey (s : List Char) (from_ : Nat) : Option (List Char × Nat) :=
  match strIndex (s.drop from_) compidTok with
  | none => none
  | some idx =>
      let start := from_ + idx + compidTok.length
      let e := endInt s start
      some (slice s start e, e)

/-- Scheme characters of Go `net/url`'s `getScheme` after the first. -/
def isSchemeTail (c : Char) : Bool :=
  c.isAlpha || isDigitChar c || c = '+' || c = '-' || c = '.'

/-- Walk of Go `net/url` `getScheme`: `acc` is the (reversed) scheme prefix
    read so far.  `some []` means no scheme; `none` a parse error
    (`missing protocol scheme`). -/
def schemeAux : List Char → List Char → Option (List Char)
  | _, [] => some []
  | acc, c :: t =>
      if c.isAlpha then schemeAux (c :: acc) t
      else if isSchemeTail c then
        if acc = [] then some [] else schemeAux (c :: acc) t
      else if c = ':' then
        if acc = [] then none else some (acc.reverse.map Char.toLower)
      else some []

/-- Modelled from the spec: the repository treats `net/url.Parse` as an
    external capability; only the scheme of the parsed URL is consulted
    (`u.Scheme == "http"`).  This models Go's `getScheme`: the lowercased
    alphanumeric prefix before `:`, empty when there is none, an error when
    `:` comes first or the string holds a control byte. -/
def urlScheme (s : List Char) : Option (List Char) :=
  if s.any (fun c => c.toNat < 32 || c.toNat = 127) then none
  else schemeAux [] s

/-- The URL acceptance test of `parseKeysFromFile`:
    `url.Parse(s)` succeeded and `u.Scheme == "http"`. -/
def urlIsHttp (s : List Char) : Bool :=
  match urlScheme s with
  | some sch => sch = "http".toList
  | none => false

/-- `parseKeysFromFile` of `competition.go`, over the configuration file's
    lines.  A line whose `?compid=` digit run is nonempty yields a
    descriptor; the code then unconditionally reads the second
    comma-separated field of the line (`strings.Split(text, ",")[1]`), so
    `none` models the index panic on such a line without a comma.  The field
    becomes the URL only when it parses with scheme `http`. -/
def parseKeysFromFile (lines : List (List Char)) : Option (List Competition) :=
  match lines with
  | [] => some []
  | l :: rest =>
      match parseKeysFromFile rest with
      | none => none
      | some tl =>
          match parseNextCompKey l 0 with
          | none => some tl
          | some (compid, _) =>
              if compid = [] then some tl
              else
                match splitComma l with
                | _ :: f :: _ =>
                    let s := trimSpace f
                    some ({ Key := compid, Name := [], Date := [],
                            URL := if urlIsHttp s then s else [],
                            NumPlayers := 0, Results := [] } :: tl)
                | _ => none

/-- `firstMissingKey` of `competition.go`: whether some requested key is
    absent from the listing map, and the first such key. -/
def firstMissingKey : List Competition → List Competition →
    Bool × List Char
  | [], _ => (false, [])
  | x :: t, m =>
      if (compLookup m x.Key).isSome then firstMissingKey t m
      else (true, x.Key)

/-- The listing environment: the cached `all_comps_<year>.dat` bytes when the
    file exists, and the live listing page the site would serve. -/
structure ListingEnv where
  cached : Option (List Char)
  live : List Char
deriving DecidableEq

/-- `fetchAllCompsPage` of `competition.go`: cache-first when `useCached`,
    else a live fetch; returns the bytes and whether they came from cache.
    (The write of the cache file after a live fetch only affects later runs
    and is not consulted again within `FetchCompDescriptions`.) -/
def fetchAllCompsPage (env : ListingEnv) (useCached : Bool) :
    List Char × Bool :=
  if useCached then
    match env.cached with
    | some d => (d, true)
    | none => (env.live, false)
  else (env.live, false)

/-- The trailing ranking-mode suffix appended to listing URLs. -/
def sortSuffix : List Char := "&sort=1".toList

/-- One iteration of the update loop of `FetchCompDescriptions`: a listing
    entry matching the requested key overwrites name and date, and the URL —
    suffixed with `&sort=1` — only when the descriptor has no URL yet. -/
def updStep (c0 acc comp : Competition) : Competition :=
  if c0.Key = comp.Key then
    { acc with Name := comp.Name, Date := comp.Date,
               URL := if acc.URL = [] then comp.URL ++ sortSuffix
                      else acc.URL }
  else acc

/-- The update loop of `FetchCompDescriptions` for one requested
    descriptor, over every listing entry. -/
def updateOne (all : List Competition) (c0 : Competition) : Competition :=
  all.foldl (updStep c0) c0

/-- The update loop over all requested descriptors. -/
def updateComps (oomComps : List Competition) (all : List Competition) :
    List Competition := oomComps.map (updateOne all)

/-- `FetchCompDescriptions` of `competition.go` over a listing environment
    and the configuration file's lines.  Returns the resolved descriptors
    and the number of forced (cache-bypassing) refetches of the listing;
    `none` models `log.Fatal`. -/
def FetchCompDescriptions (env : ListingEnv) (conf : List (List Char)) :
    Option (List Competition × Nat) :=
  match parseKeysFromFile conf with
  | none => none
  | some oomComps =>
      match parseWebComps (fetchAllCompsPage env true).1 with
      | none => none
      | some all =>
          if (firstMissingKey oomComps all).1 then
            if (fetchAllCompsPage env true).2 then
              match parseWebComps (fetchAllCompsPage env false).1 with
              | none => none
              | some all2 =>
                  if (firstMissingKey oomComps all2).1 ∧
                      ¬(fetchAllCompsPage env false).2 then none
                  else some (updateComps oomComps all2, 1)
            else none
          else some (updateComps oomComps all, 0)

/-- Stage of one dispatched worker goroutine
    (`go func(comp){ oom.Load(comp); completed <- 1; <-slots }`):
    spawned, running `Load` (fetch in flight), `Load` done, completion
    signalled, slot released. -/
inductive WStage where
  | idle
  | loading
  | loaded
  | signaled
  | released
deriving DecidableEq

/-- State of the concurrent loader of `main`: the stages of the spawned
    workers (in dispatch order), the tokens held in the `slots` channel
    (capacity 10), the messages sent on the `completed` channel (capacity N),
    and how many of them the main goroutine has received. -/
structure SysState where
  workers : List WStage
  slots : Nat
  compSent : Nat
  joined : Nat
deriving DecidableEq

/-- Interleaving semantics of the dispatch/join code of `main`: the main
    goroutine sends on `slots` (blocking at capacity 10) and then spawns the
    next worker; each worker runs `Load`, sends on `completed`, and receives
    from `slots`; after dispatching all `n` workers the main goroutine
    receives `n` times from `completed`. -/
inductive Step (n : Nat) : SysState → SysState → Prop
  | dispatch (s : SysState) (h1 : s.workers.length < n) (h2 : s.slots < 10) :
      Step n s ⟨s.workers ++ [WStage.idle], s.slots + 1, s.compSent, s.joined⟩
  | start (s : SysState) (i : Nat) (h : s.workers.get? i = some WStage.idle) :
      Step n s ⟨s.workers.set i WStage.loading, s.slots, s.compSent, s.joined⟩
  | finish (s : SysState) (i : Nat)
      (h : s.workers.get? i = some WStage.loading) :
      Step n s ⟨s.workers.set i WStage.loaded, s.slots, s.compSent, s.joined⟩
  | signal (s : SysState) (i : Nat)
      (h : s.workers.get? i = some WStage.loaded) :
      Step n s ⟨s.workers.set i WStage.signaled, s.slots, s.compSent + 1,
                s.joined⟩
  | release (s : SysState) (i : Nat)
      (h : s.workers.get? i = some WStage.signaled) (hs : 0 < s.slots) :
      Step n s ⟨s.workers.set i WStage.released, s.slots - 1, s.compSent,
                s.joined⟩
  | join (s : SysState) (h1 : s.workers.length = n)
      (h2 : s.joined < s.compSent) :
      Step n s ⟨s.workers, s.slots, s.compSent, s.joined + 1⟩

/-- The initial state: nothing dispatched. -/
def initState : SysState := ⟨[], 0, 0, 0⟩

/-- States the loader can reach from the start of the dispatch loop. -/
def Reachable (n : Nat) (s : SysState) : Prop :=
  Relation.ReflTransGen (Step n) initState s

/-- Number of fetch operations in flight: workers currently inside `Load`. -/
def inFlight (s : SysState) : Nat :=
  s.workers.countP (fun w => w = WStage.loading)

/-- The main goroutine is past the join point: it has received one
    completion per dispatched competition. -/
def pastJoin (n : Nat) (s : SysState) : Prop := s.joined = n

/-! ### Facts about the string-search primitives -/

/-- `tok` occurs in `s` as a contiguous substring. -/
def containsTok (s tok : List Char) : Prop := ∃ a b, s = a ++ tok ++ b

theorem isPrefixOf_ex {tok : List Char} :
    ∀ {s : List Char}, tok.isPrefixOf s = true → ∃ b, s = tok ++ b := by
  induction tok with
  | nil => intro s _; exact ⟨s, rfl⟩
  | cons a as ih =>
      intro s h
      cases s with
      | nil => simp [List.isPrefixOf] at h
      | cons b bs =>
          simp only [List.isPrefixOf, Bool.and_eq_true, beq_iff_eq] at h
          obtain ⟨rfl, h2⟩ := h
          obtain ⟨c, rfl⟩ := ih h2
          exact ⟨c, rfl⟩

theorem isPrefixOf_append (tok b : List Char) :
    tok.isPrefixOf (tok ++ b) = true := by
  induction tok with
  | nil => simp [List.isPrefixOf]
  | cons a as ih => simp [List.isPrefixOf, ih]

theorem strIndex_some_ex {s tok : List Char} {i : Nat}
    (h : strIndex s tok = some i) :
    ∃ a b, s = a ++ tok ++ b ∧ a.length = i := by
  induction s generalizing i with
  | nil =>
      by_cases ht : tok = ([] : List Char)
      · subst ht
        simp [strIndex] at h
        exact ⟨[], [], by simp, by simp [h]⟩
      · simp [strIndex, ht] at h
  | cons c t ih =>
      cases hp : tok.isPrefixOf (c :: t) with
      | true =>
          rw [strIndex, hp] at h
          simp only [Option.some.injEq] at h
          obtain ⟨b, hb⟩ := isPrefixOf_ex hp
          exact ⟨[], b, by simpa using hb, by simp [← h]⟩
      | false =>
          rw [strIndex, hp, Option.map_eq_some'] at h
          obtain ⟨j, hj, rfl⟩ := h
          obtain ⟨a, b, rfl, ha⟩ := ih hj
          exact ⟨c :: a, b, by simp, by simp [ha]⟩

theorem isSome_of_isPrefixOf {tok s : List Char}
    (h : tok.isPrefixOf s = true) : (strIndex s tok).isSome = true := by
  cases s with
  | nil =>
      have ht : tok = ([] : List Char) := by
        cases tok with
        | nil => rfl
        | cons a as => simp [List.isPrefixOf] at h
      simp [strIndex, ht]
  | cons c t => rw [strIndex, h]; rfl

theorem strIndex_isSome_append (a tok b : List Char) :
    (strIndex (a ++ (tok ++ b)) tok).isSome = true := by
  induction a with
  | nil =>
      rw [List.nil_append]
      exact isSome_of_isPrefixOf (isPrefixOf_append tok b)
  | cons c t ih =>
      rw [List.cons_append]
      cases hp : tok.isPrefixOf (c :: (t ++ (tok ++ b))) with
      | true => rw [strIndex, hp]; rfl
      | false => rw [strIndex, hp]; simpa using ih

theorem strIndex_isSome_iff {s tok : List Char} :
    (strIndex s tok).isSome = true ↔ containsTok s tok := by
  constructor
  · intro h
    cases hi : strIndex s tok with
    | none => simp [hi] at h
    | some i =>
        obtain ⟨a, b, hs, _⟩ := strIndex_some_ex hi
        exact ⟨a, b, hs⟩
  · rintro ⟨a, b, rfl⟩
    rw [List.append_assoc]
    exact strIndex_isSome_append a tok b

theorem strIndex_none_iff {s tok : List Char} :
    strIndex s tok = none ↔ ¬ containsTok s tok := by
  constructor
  · intro h hc
    have := strIndex_isSome_iff.mpr hc
    rw [h] at this
    simp at this
  · intro h
    cases hi : strIndex s tok with
    | none => rfl
    | some i => exact absurd (strIndex_isSome_iff.mp (by simp [hi])) h

theorem containsTok_drop {s tok : List Char} {n : Nat}
    (h : containsTok (s.drop n) tok) : containsTok s tok := by
  obtain ⟨a, b, hab⟩ := h
  refine ⟨s.take n ++ a, b, ?_⟩
  conv_lhs => rw [← List.take_append_drop n s, hab]
  simp [List.append_assoc]

theorem strIndex_none_drop {s tok : List Char} {n : Nat}
    (h : strIndex s tok = none) : strIndex (s.drop n) tok = none := by
  rw [strIndex_none_iff] at h ⊢
  exact fun hc => h (containsTok_drop hc)

theorem strIndex_some_bound {s tok : List Char} {i : Nat}
    (h : strIndex s tok = some i) : i + tok.length ≤ s.length := by
  obtain ⟨a, b, rfl, ha⟩ := strIndex_some_ex h
  simp only [List.length_append, ← ha]
  omega

theorem mem_of_containsTok {s tok : List Char} {c : Char}
    (hc : c ∈ tok) (h : containsTok s tok) : c ∈ s := by
  obtain ⟨a, b, rfl⟩ := h
  simp [hc]

theorem strIndex_char_isSome {s : List Char} {c : Char} (h : c ∈ s) :
    (strIndex s [c]).isSome = true := by
  rw [strIndex_isSome_iff]
  obtain ⟨a, b, rfl⟩ := List.append_of_mem h
  exact ⟨a, b, by simp⟩

/-- C6: for every player-row fragment, in either layout, that lacks the
    layout's expected terminator (`</a></td>` for standard, `</td></tr>` for
    championship), token extraction dies with a fatal parse error (a Go
    slice panic or the explicit `os.Exit(1)`, both modelled by `none`) and
    never returns a (name, result) pair. -/
theorem detail_missing_terminator (s : List Char) :
    (strIndex s aTdTok = none → playerDetail s = none) ∧
    (strIndex s tdTrTok = none → champDetail s = none) := by
  constructor
  · intro h
    unfold playerDetail
    cases hA : strIndex s aCloseTok with
    | none => rfl
    | some e =>
        have hd : strIndex (s.drop e) aTdTok = none := strIndex_none_drop h
        simp only [hd]
        split <;> rfl
  · intro h
    unfold champDetail
    cases hN : champNameEnd s with
    | none => rfl
    | some e =>
        have hd : strIndex (s.drop e) tdTrTok = none := strIndex_none_drop h
        simp only [hd]
        split <;> rfl

/-- Witness for C6: a standard fragment whose score cell is truncated before
    `</a></td>`, and a championship fragment truncated before `</td></tr>`,
    are both rejected. -/
theorem detail_missing_terminator_witness :
    playerDetail ("playerid=9\">Jo</a>(1)</td><td>24</td>".toList) = none ∧
    champDetail ("lass=\"namecol\">Bob</td><td>40</td>".toList) = none :=
  ⟨(detail_missing_terminator _).1 (by decide),
   (detail_missing_terminator _).2 (by decide)⟩

/-! ### C7: the championship extractor against the spec's description -/

/-- Modelled from the spec's words (§4.1, championship mode): the position
    of whichever of `<` or `(` occurs first in the fragment. -/
def specNameStop (s : List Char) : Option Nat :=
  match strIndex s ['<'], strIndex s ['('] with
  | none, none => none
  | some j, none => some j
  | none, some k => some k
  | some j, some k => some (min j k)

/-- Spec §4.1: strip one trailing `</span>` suffix if present. -/
def stripSpan (l : List Char) : List Char :=
  if 7 ≤ l.length ∧ l.drop (l.length - 7) = spanTok then l.take (l.length - 7)
  else l

/-- The displayed text of a cell: what follows its final tag close `>`. -/
def textAfter (l : List Char) : List Char := l.drop (idx1 (lastIdxChar l '>'))

/-- Spec §4.1: the display token `&nbsp;` is normalized to the status `NS`. -/
def normNS (l : List Char) : List Char := if l = nbspTok then nsTok else l

theorem stripSpan_of_len {l : List Char} (h : 7 ≤ l.length) :
    stripSpan l =
      if l.drop (l.length - 7) = spanTok then l.take (l.length - 7) else l := by
  unfold stripSpan
  by_cases hc : l.drop (l.length - 7) = spanTok
  · simp [hc, h]
  · simp [hc, h]

/-- C7: in championship mode, on every well-formed fragment — one whose
    name stop (the earlier of the first `<` and first `(`) follows the first
    `>`, and whose result body before the first `</td></tr>` terminator has
    at least the 7 characters the Go suffix check indexes — the extracted
    name is the (trimmed) text between the first `>` and that name stop, and
    the extracted result is the display text immediately preceding the
    terminator, with a trailing `</span>` stripped if present and `&nbsp;`
    normalized to `NS`. -/
theorem champDetail_wellformed (s : List Char) (e t : Nat)
    (he : specNameStop s = some e)
    (ha : idx1 (strIndex s ['>']) ≤ e)
    (ht : strIndex (s.drop e) tdTrTok = some t)
    (h7 : 7 ≤ t) :
    champDetail s =
      some (trimSpace (slice s (idx1 (strIndex s ['>'])) e),
            normNS (textAfter (stripSpan ((s.drop e).take t)))) := by
  have hlt : '<' ∈ s := by
    have hc : containsTok (s.drop e) tdTrTok := by
      rw [← strIndex_isSome_iff]
      simp [ht]
    exact List.mem_of_mem_drop (mem_of_containsTok (by decide) hc)
  obtain ⟨j, hj⟩ := Option.isSome_iff_exists.mp (strIndex_char_isSome hlt)
  have hne : champNameEnd s = some e := by
    unfold specNameStop at he
    unfold champNameEnd
    rw [hj] at he ⊢
    cases hk : strIndex s ['('] with
    | none => rw [hk] at he; exact he
    | some k =>
        rw [hk] at he
        simp only [Option.some.injEq] at he ⊢
        rw [Nat.min_def] at he
        by_cases hkj : k < j
        · rw [if_pos hkj]
          rw [if_neg (by omega)] at he
          exact he
        · rw [if_neg hkj]
          rw [if_pos (by omega)] at he
          exact he
  have hlen2 : ((s.drop e).take t).length = t := by
    have hb := strIndex_some_bound ht
    have hl10 : tdTrTok.length = 10 := by decide
    rw [hl10] at hb
    simp only [List.length_take]
    omega
  have hstrip := @stripSpan_of_len ((s.drop e).take t) (by omega)
  rw [hlen2] at hstrip
  unfold champDetail
  rw [hne]
  simp only
  rw [if_pos ha, ht]
  simp only [hlen2]
  rw [if_neg (by omega)]
  rw [hstrip]
  unfold normNS textAfter
  split <;> simp

/-- Witness for C7: a championship row fragment with a handicap annotation
    and a `</span>`-wrapped score extracts name `John Smith` and result
    `72`. -/
theorem champDetail_wellformed_witness :
    champDetail
      ("lass=\"namecol\">John Smith (12)</td><td>72</span></td></tr>x".toList)
      = some ("John Smith".toList, "72".toList) :=
  (champDetail_wellformed
      ("lass=\"namecol\">John Smith (12)</td><td>72</span></td></tr>x".toList)
      26 22 (by decide) (by decide) (by decide) (by decide)).trans (by decide)

/-! ### C1: the scoring engine -/

/-- A standard-layout results page with players Alice(72), Bob(75),
    Carol(DQ), in finishing order. -/
def pageW : List Char :=
  ("junk?playerid=1\">Alice</a>(5)</td><td><a t=\"u\">72</a></td>" ++
   "?playerid=2\">Bob</a>(6)</td><td><a t=\"u\">75</a></td>" ++
   "?playerid=3\">Carol</a>(7)</td><td><a t=\"u\">DQ</a></td>").toList

/-- The player sequence `pageW` parses into. -/
def resW : List PlayerResult :=
  [⟨"Alice".toList, 0, 1, "72".toList⟩, ⟨"Bob".toList, 0, 2, "75".toList⟩,
   ⟨"Carol".toList, 0, 3, "DQ".toList⟩]

theorem get_cons_succ' {α : Type} (a : α) (l : List α) (i : Nat)
    (h : i + 1 < (a :: l).length) (h2 : i < l.length) :
    (a :: l).get ⟨i + 1, h⟩ = l.get ⟨i, h2⟩ := rfl

theorem scoreAux_length (np n : Nat) (res : List PlayerResult) :
    (scoreAux np n res).length = res.length := by
  induction res generalizing n with
  | nil => rfl
  | cons p t ih => simp [scoreAux, ih]

theorem scoreAux_get (np : Nat) :
    ∀ (res : List PlayerResult) (n i : Nat)
      (hi : i < (scoreAux np n res).length) (hi' : i < res.length),
      ((scoreAux np n res).get ⟨i, hi⟩).Name = (res.get ⟨i, hi'⟩).Name ∧
      ((scoreAux np n res).get ⟨i, hi⟩).Rank = (res.get ⟨i, hi'⟩).Rank ∧
      ((scoreAux np n res).get ⟨i, hi⟩).Result = (res.get ⟨i, hi'⟩).Result ∧
      ((scoreAux np n res).get ⟨i, hi⟩).OOMPoints =
        (if (atoi (res.get ⟨i, hi'⟩).Result).isSome
         then (np : Int) - ((n : Int) + (i : Int)) else 0) := by
  intro res
  induction res with
  | nil => intro n i hi hi'; simp at hi'
  | cons p t ih =>
      intro n i hi hi'
      cases i with
      | zero =>
          refine ⟨rfl, rfl, rfl, ?_⟩
          show (if (atoi p.Result).isSome then (np : Int) - (n : Int) else 0)
            = _
          have h0 : (((p :: t).get ⟨0, hi'⟩) : PlayerResult) = p := rfl
          rw [h0]
          by_cases hc : (atoi p.Result).isSome = true
          · rw [if_pos hc, if_pos hc]
            push_cast
            omega
          · rw [if_neg hc, if_neg hc]
      | succ i =>
          have h1 : i < (scoreAux np (n + 1) t).length := by
            simpa [scoreAux] using hi
          have h2 : i < t.length := by simpa using hi'
          obtain ⟨e1, e2, e3, e4⟩ := ih (n + 1) i h1 h2
          have hg : ((scoreAux np n (p :: t)).get ⟨i + 1, hi⟩) =
              ((scoreAux np (n + 1) t).get ⟨i, h1⟩) := rfl
          have hres : (((p :: t).get ⟨i + 1, hi'⟩) : PlayerResult) =
              t.get ⟨i, h2⟩ := rfl
          refine ⟨by rw [hg, hres]; exact e1, by rw [hg, hres]; exact e2,
                  by rw [hg, hres]; exact e3, ?_⟩
          rw [hg, hres, e4]
          split
          · push_cast
            omega
          · rfl

theorem mkPlayers_length
    {detail : List Char → Option (List Char × List Char)} :
    ∀ {frags : List (List Char)} {acc : Nat} {res : List PlayerResult},
      mkPlayers detail frags acc = some res → res.length = frags.length := by
  intro frags
  induction frags with
  | nil => intro acc res h; simp [mkPlayers] at h; simp [← h]
  | cons f t ih =>
      intro acc res h
      rw [mkPlayers] at h
      cases hd : detail f with
      | none => rw [hd] at h; simp at h
      | some p =>
          rw [hd] at h
          cases hm : mkPlayers detail t (acc + 1) with
          | none => rw [hm] at h; simp at h
          | some r =>
              rw [hm] at h
              simp only [Option.map_some', Option.some.injEq] at h
              subst h
              simp [ih hm]

theorem mkPlayers_rank
    {detail : List Char → Option (List Char × List Char)} :
    ∀ {frags : List (List Char)} {acc : Nat} {res : List PlayerResult},
      mkPlayers detail frags acc = some res →
      ∀ i (hi : i < res.length),
        (res.get ⟨i, hi⟩).Rank = (acc : Int) + (i : Int) + 1 := by
  intro frags
  induction frags with
  | nil =>
      intro acc res h
      simp [mkPlayers] at h
      subst h
      intro i hi
      simp at hi
  | cons f t ih =>
      intro acc res h
      rw [mkPlayers] at h
      cases hd : detail f with
      | none => rw [hd] at h; simp at h
      | some p =>
          rw [hd] at h
          cases hm : mkPlayers detail t (acc + 1) with
          | none => rw [hm] at h; simp at h
          | some r =>
              rw [hm] at h
              simp only [Option.map_some', Option.some.injEq] at h
              subst h
              intro i hi
              cases i with
              | zero => simp
              | succ i =>
                  have h2 : i < r.length := by simpa using hi
                  rw [get_cons_succ' _ r i hi h2, ih hm i h2]
                  push_cast
                  omega

/-- C1: for every results page parsed into an ordered player sequence, the
    scoring stage of `populateResultsFromWeb` gives the entry at 0-based
    position `i` rank `i + 1` (its 1-based position) and
    `playerCount - i` points — the winner gets `playerCount`, last place
    gets 1 — with the points forced to 0 whenever the raw result does not
    parse as an integer, regardless of position. -/
theorem scoring_engine_spec (data : List Char) (res : List PlayerResult)
    (h : mkPlayers (pageDetail data) (pageFrags data) 0 = some res) :
    ∀ i (hi : i < (scorePlayers (pageFrags data).length res).length),
      ((scorePlayers (pageFrags data).length res).get ⟨i, hi⟩).Rank =
        (i : Int) + 1 ∧
      ((scorePlayers (pageFrags data).length res).get ⟨i, hi⟩).OOMPoints =
        (if (atoi (((scorePlayers (pageFrags data).length res).get
              ⟨i, hi⟩).Result)).isSome
         then ((pageFrags data).length : Int) - (i : Int) else 0) := by
  intro i hi
  have hi2 : i < (scoreAux (pageFrags data).length 0 res).length := hi
  have hi' : i < res.length := by rw [scoreAux_length] at hi2; exact hi2
  obtain ⟨e1, e2, e3, e4⟩ :=
    scoreAux_get (pageFrags data).length res 0 i hi2 hi'
  have hrank := mkPlayers_rank h i hi'
  constructor
  · show ((scoreAux (pageFrags data).length 0 res).get ⟨i, hi2⟩).Rank = _
    rw [e2, hrank]
    push_cast
    omega
  · show ((scoreAux (pageFrags data).length 0 res).get ⟨i, hi2⟩).OOMPoints =
      (if (atoi (((scoreAux (pageFrags data).length 0 res).get
            ⟨i, hi2⟩).Result)).isSome
       then ((pageFrags data).length : Int) - (i : Int) else 0)
    rw [e4, e3]
    split
    · push_cast
      omega
    · rfl

set_option maxRecDepth 10000 in
/-- Witness for C1: on the Alice/Bob/Carol page, Carol (third, result `DQ`)
    gets rank 3 and 0 points. -/
theorem scoring_engine_spec_witness :
    ((scorePlayers (pageFrags pageW).length resW).get ⟨2, by decide⟩).Rank = 3
    ∧ ((scorePlayers (pageFrags pageW).length resW).get
        ⟨2, by decide⟩).OOMPoints = 0 := by
  obtain ⟨h1, h2⟩ := scoring_engine_spec pageW resW (by decide) 2 (by decide)
  exact ⟨h1.trans (by norm_num), h2.trans (by decide)⟩

/-! ### C10: shape of the results map built by `populateResultsFromWeb` -/

theorem any_name_eq (m : List PlayerResult) (nm : List Char) :
    m.any (fun q => q.Name = nm) = true ↔ nm ∈ m.map PlayerResult.Name := by
  induction m with
  | nil => simp
  | cons a t ih =>
      simp only [List.any_cons, Bool.or_eq_true, decide_eq_true_eq, ih,
        List.map_cons, List.mem_cons]
      constructor
      · rintro (h | h)
        · exact Or.inl h.symm
        · exact Or.inr h
      · rintro (h | h)
        · exact Or.inl h.symm
        · exact Or.inr h

theorem names_map_replace (m : List PlayerResult) (p : PlayerResult) :
    (m.map (fun q => if q.Name = p.Name then p else q)).map PlayerResult.Name
      = m.map PlayerResult.Name := by
  induction m with
  | nil => rfl
  | cons a t ih =>
      simp only [List.map_cons, ih, List.cons.injEq, and_true]
      by_cases ha : a.Name = p.Name
      · simp [ha]
      · simp [ha]

theorem mapInsert_not_mem {m : List PlayerResult} {p : PlayerResult}
    (h : p.Name ∉ m.map PlayerResult.Name) : mapInsert m p = m ++ [p] := by
  unfold mapInsert
  rw [if_neg (fun hc => h ((any_name_eq m p.Name).mp hc))]

theorem names_mapInsert_mem {m : List PlayerResult} {p : PlayerResult}
    (h : p.Name ∈ m.map PlayerResult.Name) :
    (mapInsert m p).map PlayerResult.Name = m.map PlayerResult.Name := by
  unfold mapInsert
  rw [if_pos ((any_name_eq m p.Name).mpr h)]
  exact names_map_replace m p

theorem length_mapInsert_mem {m : List PlayerResult} {p : PlayerResult}
    (h : p.Name ∈ m.map PlayerResult.Name) :
    (mapInsert m p).length = m.length := by
  unfold mapInsert
  rw [if_pos ((any_name_eq m p.Name).mpr h)]
  exact List.length_map m _

theorem build_facts :
    ∀ (l acc : List PlayerResult), (acc.map PlayerResult.Name).Nodup →
      (l.foldl mapInsert acc).length ≤ acc.length + l.length ∧
      ((l.foldl mapInsert acc).length = acc.length + l.length ↔
        (acc.map PlayerResult.Name ++ l.map PlayerResult.Name).Nodup) := by
  intro l
  induction l with
  | nil => intro acc hacc; simp [hacc]
  | cons a t ih =>
      intro acc hacc
      rw [List.foldl_cons]
      by_cases hmem : a.Name ∈ acc.map PlayerResult.Name
      · have hlen : (mapInsert acc a).length = acc.length :=
          length_mapInsert_mem hmem
        have hnames := names_mapInsert_mem hmem
        obtain ⟨ih1, ih2⟩ := ih (mapInsert acc a) (by rw [hnames]; exact hacc)
        rw [hlen] at ih1
        constructor
        · simp only [List.length_cons]
          omega
        · constructor
          · intro he
            rw [he] at ih1
            simp only [List.length_cons] at ih1
            omega
          · intro hnd
            exfalso
            rw [List.nodup_append] at hnd
            exact hnd.2.2 hmem (by simp)
      · have hins : mapInsert acc a = acc ++ [a] := mapInsert_not_mem hmem
        have hnames : (mapInsert acc a).map PlayerResult.Name =
            acc.map PlayerResult.Name ++ [a.Name] := by rw [hins]; simp
        have hnd' : ((mapInsert acc a).map PlayerResult.Name).Nodup := by
          rw [hnames, List.nodup_append]
          refine ⟨hacc, List.nodup_singleton _, ?_⟩
          intro x hx hx'
          simp only [List.mem_singleton] at hx'
          subst hx'
          exact hmem hx
        obtain ⟨ih1, ih2⟩ := ih (mapInsert acc a) hnd'
        have hlen : (mapInsert acc a).length = acc.length + 1 := by
          rw [hins]
          simp
        rw [hlen] at ih1 ih2
        rw [hnames] at ih2
        constructor
        · simp only [List.length_cons]
          omega
        · constructor
          · intro he
            have h2 := ih2.mp (by simp only [List.length_cons] at he; omega)
            simpa [List.append_assoc] using h2
          · intro hnd
            have h2 := ih2.mpr (by simpa [List.append_assoc] using hnd)
            simp only [List.length_cons]
            omega

theorem find_map_replace {m : List PlayerResult} {p : PlayerResult}
    {nm : List Char} (h : nm ≠ p.Name) :
    (m.map (fun q => if q.Name = p.Name then p else q)).find?
        (fun q => q.Name = nm) =
      m.find? (fun q => q.Name = nm) := by
  induction m with
  | nil => rfl
  | cons a t ih =>
      rw [List.map_cons]
      by_cases hb : a.Name = nm
      · have ha : a.Name ≠ p.Name := fun hc => h (hb.symm.trans hc)
        rw [if_neg ha, List.find?_cons_of_pos _ (by simp [hb]),
            List.find?_cons_of_pos _ (by simp [hb])]
      · by_cases ha : a.Name = p.Name
        · rw [if_pos ha,
              List.find?_cons_of_neg _
                (by simp only [decide_eq_true_eq]; exact fun hc => h hc.symm),
              List.find?_cons_of_neg _ (by simp [hb])]
          exact ih
        · rw [if_neg ha, List.find?_cons_of_neg _ (by simp [hb]),
              List.find?_cons_of_neg _ (by simp [hb])]
          exact ih

theorem find_map_replace_self {m : List PlayerResult} {p : PlayerResult}
    (hmem : p.Name ∈ m.map PlayerResult.Name) :
    (m.map (fun q => if q.Name = p.Name then p else q)).find?
        (fun q => q.Name = p.Name) = some p := by
  induction m with
  | nil => simp at hmem
  | cons a t ih =>
      rw [List.map_cons]
      by_cases ha : a.Name = p.Name
      · rw [if_pos ha, List.find?_cons_of_pos _ (by simp)]
      · rw [if_neg ha, List.find?_cons_of_neg _ (by simp [ha])]
        apply ih
        simp only [List.map_cons, List.mem_cons] at hmem
        rcases hmem with hh | hh
        · exact absurd hh.symm ha
        · exact hh

theorem find_none_of_not_mem {m : List PlayerResult} {nm : List Char}
    (h : nm ∉ m.map PlayerResult.Name) :
    m.find? (fun q => q.Name = nm) = none := by
  induction m with
  | nil => rfl
  | cons a t ih =>
      simp only [List.map_cons, List.mem_cons] at h
      push_neg at h
      rw [List.find?_cons_of_neg _
        (by simp only [decide_eq_true_eq]; exact fun hc => h.1 hc.symm)]
      exact ih h.2

theorem mapLookup_insert (m : List PlayerResult) (p : PlayerResult)
    (nm : List Char) :
    mapLookup (mapInsert m p) nm =
      if nm = p.Name then some p else mapLookup m nm := by
  by_cases h : nm = p.Name
  · subst h
    rw [if_pos rfl]
    by_cases hmem : p.Name ∈ m.map PlayerResult.Name
    · unfold mapInsert mapLookup
      rw [if_pos ((any_name_eq m p.Name).mpr hmem)]
      exact find_map_replace_self hmem
    · rw [mapInsert_not_mem hmem]
      unfold mapLookup
      rw [List.find?_append, find_none_of_not_mem hmem, List.find?_singleton]
      simp
  · rw [if_neg h]
    by_cases hmem : p.Name ∈ m.map PlayerResult.Name
    · unfold mapInsert mapLookup
      rw [if_pos ((any_name_eq m p.Name).mpr hmem)]
      exact find_map_replace h
    · rw [mapInsert_not_mem hmem]
      unfold mapLookup
      rw [List.find?_append, List.find?_singleton,
          if_neg (by simp only [decide_eq_true_eq]; exact fun hc => h hc.symm)]
      cases m.find? (fun q => q.Name = nm) <;> rfl

theorem lookup_build (l : List PlayerResult) (nm : List Char) :
    mapLookup (l.foldl mapInsert []) nm =
      l.reverse.find? (fun p => p.Name = nm) := by
  induction l using List.reverseRecOn with
  | nil => rfl
  | append_singleton l' p ih =>
      rw [List.foldl_append]
      show mapLookup (mapInsert (l'.foldl mapInsert []) p) nm = _
      rw [mapLookup_insert, List.reverse_append]
      simp only [List.reverse_singleton, List.singleton_append]
      by_cases h : nm = p.Name
      · rw [if_pos h, List.find?_cons_of_pos _ (by simp [h.symm])]
      · rw [if_neg h, List.find?_cons_of_neg _
          (by simp only [decide_eq_true_eq]; exact fun hc => h hc.symm)]
        exact ih

theorem scoreAux_names (np : Nat) :
    ∀ (res : List PlayerResult) (n : Nat),
      (scoreAux np n res).map PlayerResult.Name =
        res.map PlayerResult.Name := by
  intro res
  induction res with
  | nil => intro n; rfl
  | cons p t ih => intro n; simp [scoreAux, ih (n + 1)]

/-- C10: for every competition populated from the web, `NumPlayers` is the
    number of player fragments following the discarded header fragment,
    while `Results` holds one entry per distinct parsed player name — a
    later fragment with the same name overwrites the earlier one — so its
    size is at most `NumPlayers`, with equality exactly when all parsed
    names are distinct. -/
theorem populate_results_invariant (comp : Competition) (data : List Char)
    (c' : Competition) (h : populateResultsFromWeb comp data = some c') :
    ∃ res, mkPlayers (pageDetail data) (pageFrags data) 0 = some res ∧
      c'.NumPlayers = ((pageFrags data).length : Int) ∧
      c'.Results.length ≤ (pageFrags data).length ∧
      (c'.Results.length = (pageFrags data).length ↔
        (res.map PlayerResult.Name).Nodup) ∧
      (∀ nm, mapLookup c'.Results nm =
        (scorePlayers (pageFrags data).length res).reverse.find?
          (fun p => p.Name = nm)) := by
  unfold populateResultsFromWeb at h
  cases hm : mkPlayers (pageDetail data) (pageFrags data) 0 with
  | none => rw [hm] at h; simp at h
  | some res =>
      rw [hm] at h
      simp only [Option.map_some', Option.some.injEq] at h
      subst h
      have hlen : (scorePlayers (pageFrags data).length res).length =
          (pageFrags data).length := by
        rw [scorePlayers, scoreAux_length, mkPlayers_length hm]
      have hnames : (scorePlayers (pageFrags data).length res).map
          PlayerResult.Name = res.map PlayerResult.Name :=
        scoreAux_names (pageFrags data).length res 0
      obtain ⟨hb1, hb2⟩ :=
        build_facts (scorePlayers (pageFrags data).length res) [] (by simp)
      refine ⟨res, rfl, rfl, ?_, ?_, ?_⟩
      · show ((scorePlayers (pageFrags data).length res).foldl
          mapInsert []).length ≤ _
        rw [hlen] at hb1
        simpa using hb1
      · show ((scorePlayers (pageFrags data).length res).foldl
          mapInsert []).length = _ ↔ _
        rw [hlen, hnames] at hb2
        simpa using hb2
      · intro nm
        exact lookup_build (scorePlayers (pageFrags data).length res) nm

set_option maxRecDepth 10000 in
/-- Witness for C10: instantiated on the Alice/Bob/Carol page, whose three
    parsed names are distinct. -/
theorem populate_results_invariant_witness :
    ∃ res, mkPlayers (pageDetail pageW) (pageFrags pageW) 0 = some res ∧
      (Competition.mk ("7".toList) [] [] [] 3
        [⟨"Alice".toList, 3, 1, "72".toList⟩, ⟨"Bob".toList, 2, 2, "75".toList⟩,
         ⟨"Carol".toList, 0, 3, "DQ".toList⟩]).NumPlayers =
        ((pageFrags pageW).length : Int) ∧
      (Competition.mk ("7".toList) [] [] [] 3
        [⟨"Alice".toList, 3, 1, "72".toList⟩, ⟨"Bob".toList, 2, 2, "75".toList⟩,
         ⟨"Carol".toList, 0, 3, "DQ".toList⟩]).Results.length ≤
        (pageFrags pageW).length ∧
      ((Competition.mk ("7".toList) [] [] [] 3
        [⟨"Alice".toList, 3, 1, "72".toList⟩, ⟨"Bob".toList, 2, 2, "75".toList⟩,
         ⟨"Carol".toList, 0, 3, "DQ".toList⟩]).Results.length =
          (pageFrags pageW).length ↔
        (res.map PlayerResult.Name).Nodup) ∧
      (∀ nm, mapLookup (Competition.mk ("7".toList) [] [] [] 3
        [⟨"Alice".toList, 3, 1, "72".toList⟩, ⟨"Bob".toList, 2, 2, "75".toList⟩,
         ⟨"Carol".toList, 0, 3, "DQ".toList⟩]).Results nm =
        (scorePlayers (pageFrags pageW).length res).reverse.find?
          (fun p => p.Name = nm)) :=
  populate_results_invariant (Competition.mk ("7".toList) [] [] [] 0 [])
    pageW _ (by decide)

/-! ### C4: cache serialization round trip -/

/-- A field value that survives the cache format: free of the comma
    separator and stable under `TrimSpace` — exactly what `readCached`
    itself produces, since every field it returns is a trimmed
    between-commas slice. -/
def cleanField (l : List Char) : Prop := (',' ∉ l) ∧ trimSpace l = l

/-- A competition whose fields survive the cache format; `Results` names
    are unique (the Go map invariant). -/
def GoodComp (c : Competition) : Prop :=
  cleanField c.Key ∧ cleanField c.Name ∧ cleanField c.Date ∧
  cleanField c.URL ∧
  (∀ p ∈ c.Results, cleanField p.Name ∧ cleanField p.Result) ∧
  (c.Results.map PlayerResult.Name).Nodup

theorem splitComma_ne_nil (l : List Char) : splitComma l ≠ [] := by
  cases l with
  | nil => simp [splitComma]
  | cons c t =>
      rw [splitComma]
      cases splitComma t with
      | nil => simp
      | cons h r =>
          by_cases hc : c = ','
          · simp [hc]
          · simp [hc]

theorem splitComma_no_comma {a : List Char} (h : ',' ∉ a) :
    splitComma a = [a] := by
  induction a with
  | nil => rfl
  | cons c t ih =>
      simp only [List.mem_cons] at h
      push_neg at h
      rw [splitComma, ih h.2]
      have hc : ¬(c = ',') := fun hc => h.1 hc.symm
      simp [hc]

theorem splitComma_append {a : List Char} (b : List Char) (h : ',' ∉ a) :
    splitComma (a ++ ',' :: b) = a :: splitComma b := by
  induction a with
  | nil =>
      rw [List.nil_append, splitComma]
      cases hb : splitComma b with
      | nil => exact absurd hb (splitComma_ne_nil b)
      | cons x r => simp
  | cons c t ih =>
      simp only [List.mem_cons] at h
      push_neg at h
      rw [List.cons_append, splitComma, ih h.2]
      have hc : ¬(c = ',') := fun hc => h.1 hc.symm
      simp [hc]

theorem trim_space_cons (l : List Char) : trimSpace (' ' :: l) = trimSpace l := by
  unfold trimSpace
  rw [List.dropWhile_cons_of_pos (by decide)]

theorem trim_replicate (k : Nat) (l : List Char) :
    trimSpace (List.replicate k ' ' ++ l) = trimSpace l := by
  induction k with
  | zero => rw [List.replicate_zero, List.nil_append]
  | succ k ih => rw [List.replicate_succ, List.cons_append, trim_space_cons, ih]

theorem trim_padLeft (w : Nat) (l : List Char) :
    trimSpace (padLeft w l) = trimSpace l := trim_replicate _ l

theorem trim_noSpace {l : List Char}
    (h : ∀ c ∈ l, isSpaceChar c = false) : trimSpace l = l := by
  have h1 : ∀ (m : List Char), (∀ c ∈ m, isSpaceChar c = false) →
      m.dropWhile isSpaceChar = m := by
    intro m hm
    cases m with
    | nil => rfl
    | cons c t => exact List.dropWhile_cons_of_neg (by simp [hm c (by simp)])
  unfold trimSpace
  rw [h1 l h, h1 l.reverse (fun c hc => h c (List.mem_reverse.mp hc)),
      List.reverse_reverse]

theorem field2_label {lab v : List Char} (hl : ',' ∉ lab) (hv : ',' ∉ v)
    (ht : trimSpace v = v) : field2 (lab ++ ',' :: ' ' :: v) = some v := by
  unfold field2
  have hsv : ',' ∉ (' ' :: v) := by
    simp only [List.mem_cons]
    push_neg
    exact ⟨by decide, hv⟩
  rw [splitComma_append _ hl, splitComma_no_comma hsv]
  show some (trimSpace (' ' :: v)) = some v
  rw [trim_space_cons, ht]

theorem digitsValAux_append (a b : List Char) (acc : Nat) :
    digitsValAux (a ++ b) acc =
      match digitsValAux a acc with
      | none => none
      | some m => digitsValAux b m := by
  induction a generalizing acc with
  | nil => simp [digitsValAux]
  | cons c t ih =>
      by_cases hc : isDigitChar c = true
      · simp [digitsValAux, hc, ih]
      · simp [digitsValAux, hc]

theorem digitChar_isDigit {d : Nat} (h : d < 10) :
    isDigitChar (digitChar d) = true := by
  interval_cases d <;> decide

theorem digVal_digitChar {d : Nat} (h : d < 10) : digVal (digitChar d) = d := by
  interval_cases d <;> decide

theorem natToCharsAux_spec :
    ∀ (fuel n acc : Nat), n < 10 ^ fuel →
      digitsValAux (natToCharsAux fuel n) acc =
        some (acc * 10 ^ (natToCharsAux fuel n).length + n) := by
  intro fuel
  induction fuel with
  | zero =>
      intro n acc h
      simp only [pow_zero, Nat.lt_one_iff] at h
      subst h
      simp [natToCharsAux, digitsValAux]
  | succ fuel ih =>
      intro n acc h
      rw [natToCharsAux]
      by_cases hn : n < 10
      · rw [if_pos hn]
        simp only [digitsValAux, digitChar_isDigit hn, if_pos,
          digVal_digitChar hn, List.length_singleton, pow_one]
      · rw [if_neg hn]
        have hdiv : n / 10 < 10 ^ fuel := by
          apply Nat.div_lt_of_lt_mul
          rw [← pow_succ']
          exact h
        rw [digitsValAux_append, ih (n / 10) acc hdiv]
        have hm : n % 10 < 10 := Nat.mod_lt _ (by norm_num)
        simp only [digitsValAux, digitChar_isDigit hm, if_pos,
          digVal_digitChar hm, List.length_append, List.length_singleton]
        have h10 : 10 * (n / 10) + n % 10 = n := Nat.div_add_mod n 10
        congr 1
        rw [pow_succ]
        set P := 10 ^ (natToCharsAux fuel (n / 10)).length with hP
        calc (acc * P + n / 10) * 10 + n % 10
            = acc * (P * 10) + (10 * (n / 10) + n % 10) := by ring
          _ = acc * (P * 10) + n := by rw [h10]

theorem natToChars_cons :
    ∀ n : Nat, ∃ c t, natToChars n = c :: t ∧ isDigitChar c = true := by
  intro n
  have hall : ∀ fuel m, ∀ c ∈ natToCharsAux fuel m, isDigitChar c = true := by
    intro fuel
    induction fuel with
    | zero => intro m c hc; simp [natToCharsAux] at hc
    | succ fuel ih =>
        intro m c hc
        rw [natToCharsAux] at hc
        by_cases hm : m < 10
        · rw [if_pos hm] at hc
          simp only [List.mem_singleton] at hc
          subst hc
          exact digitChar_isDigit hm
        · rw [if_neg hm] at hc
          simp only [List.mem_append, List.mem_singleton] at hc
          rcases hc with hc | hc
          · exact ih _ _ hc
          · subst hc
            exact digitChar_isDigit (Nat.mod_lt _ (by norm_num))
  cases hnc : natToChars n with
  | nil =>
      exfalso
      unfold natToChars natToCharsAux at hnc
      by_cases hn : n < 10
      · rw [if_pos hn] at hnc
        simp at hnc
      · rw [if_neg hn] at hnc
        simp at hnc
  | cons c t =>
      refine ⟨c, t, rfl, hall (n + 1) n c ?_⟩
      show c ∈ natToChars n
      rw [hnc]
      simp

theorem nat_lt_pow_succ (n : Nat) : n < 10 ^ (n + 1) := by
  induction n with
  | zero => norm_num
  | succ n ih =>
      have h1 : 10 ^ (n + 1) ≥ 1 := Nat.one_le_pow _ _ (by norm_num)
      calc n + 1 < 10 ^ (n + 1) + 1 := by omega
        _ ≤ 10 ^ (n + 1) + 10 ^ (n + 1) := by omega
        _ ≤ 10 ^ (n + 1 + 1) := by rw [pow_succ]; omega

theorem digitsVal_natToChars (n : Nat) : digitsVal (natToChars n) = some n := by
  obtain ⟨c, t, hct, _⟩ := natToChars_cons n
  have hspec := natToCharsAux_spec (n + 1) n 0 (nat_lt_pow_succ n)
  rw [show natToCharsAux (n + 1) n = natToChars n from rfl, hct] at hspec
  rw [hct]
  show digitsValAux (c :: t) 0 = some n
  rw [hspec]
  simp

theorem digit_not_plus_minus {c : Char} (h : isDigitChar c = true) :
    ¬(c = '+') ∧ ¬(c = '-') := by
  constructor
  · rintro rfl
    simp [isDigitChar] at h
  · rintro rfl
    simp [isDigitChar] at h

theorem atoi_intChars (i : Int) : atoi (intChars i) = some i := by
  by_cases hneg : i < 0
  · unfold intChars
    rw [if_pos hneg]
    rw [atoi]
    rw [if_neg (by decide : ¬('-' = '+')), if_pos rfl, digitsVal_natToChars]
    show some (-(i.natAbs : Int)) = some i
    simp only [Option.some.injEq]
    omega
  · unfold intChars
    rw [if_neg hneg]
    obtain ⟨c, t, hct, hd⟩ := natToChars_cons i.natAbs
    obtain ⟨h1, h2⟩ := digit_not_plus_minus hd
    rw [hct, atoi]
    rw [if_neg h1, if_neg h2, ← hct, digitsVal_natToChars]
    simp only [Option.map_some', Option.some.injEq, Int.ofNat_eq_coe]
    omega

theorem atoiOr0_intChars (i : Int) : atoiOr0 (intChars i) = i := by
  simp [atoiOr0, atoi_intChars]

theorem intChars_not_comma_space (i : Int) :
    (',' ∉ intChars i) ∧ (∀ c ∈ intChars i, isSpaceChar c = false) := by
  have hall : ∀ fuel m, ∀ c ∈ natToCharsAux fuel m,
      isDigitChar c = true := by
    intro fuel
    induction fuel with
    | zero => intro m c hc; simp [natToCharsAux] at hc
    | succ fuel ih =>
        intro m c hc
        rw [natToCharsAux] at hc
        by_cases hm : m < 10
        · rw [if_pos hm] at hc
          simp only [List.mem_singleton] at hc
          subst hc
          exact digitChar_isDigit hm
        · rw [if_neg hm] at hc
          simp only [List.mem_append, List.mem_singleton] at hc
          rcases hc with hc | hc
          · exact ih _ _ hc
          · subst hc
            exact digitChar_isDigit (Nat.mod_lt _ (by norm_num))
  have hdig : ∀ c : Char, isDigitChar c = true →
      ¬(c = ',') ∧ isSpaceChar c = false := by
    intro c hc
    constructor
    · rintro rfl
      simp [isDigitChar] at hc
    · unfold isDigitChar at hc
      simp only [Bool.and_eq_true, decide_eq_true_eq] at hc
      have hsp : ¬(c = ' ') := by rintro rfl; exact absurd hc.1 (by decide)
      have htb : ¬(c = '\t') := by rintro rfl; exact absurd hc.1 (by decide)
      have hnl : ¬(c = '\n') := by rintro rfl; exact absurd hc.1 (by decide)
      have hcr : ¬(c = '\r') := by rintro rfl; exact absurd hc.1 (by decide)
      unfold isSpaceChar
      rw [decide_eq_false hsp, decide_eq_false htb, decide_eq_false hnl,
          decide_eq_false hcr]
      rfl
  unfold intChars
  by_cases hneg : i < 0
  · rw [if_pos hneg]
    constructor
    · intro hc
      simp only [List.mem_cons] at hc
      rcases hc with hc | hc
      · exact absurd hc (by decide)
      · exact (hdig ',' (hall _ _ _ hc)).1 rfl
    · intro c hc
      simp only [List.mem_cons] at hc
      rcases hc with hc | hc
      · subst hc; decide
      · exact (hdig c (hall _ _ _ hc)).2
  · rw [if_neg hneg]
    constructor
    · intro hc
      exact (hdig ',' (hall _ _ _ hc)).1 rfl
    · intro c hc
      exact (hdig c (hall _ _ _ hc)).2

theorem not_comma_cons_space {l : List Char} (h : ',' ∉ l) :
    ',' ∉ (' ' :: l) := by
  simp only [List.mem_cons]
  push_neg
  exact ⟨by decide, h⟩

theorem pad_not_comma {l : List Char} {w : Nat} (h : ',' ∉ l) :
    ',' ∉ padLeft w l := by
  unfold padLeft
  intro hc
  rcases List.mem_append.mp hc with hc | hc
  · exact absurd (List.eq_of_mem_replicate hc) (by decide)
  · exact h hc

theorem splitComma_row (A B C N : List Char) (hA : ',' ∉ A) (hB : ',' ∉ B)
    (hC : ',' ∉ C) (hN : ',' ∉ N) :
    splitComma (A ++ ',' :: ' ' :: (B ++ ',' :: ' ' ::
        (C ++ ',' :: ' ' :: (N ++ [',', ' '])))) =
      [A, ' ' :: B, ' ' :: C, ' ' :: N, [' ']] := by
  rw [splitComma_append _ hA]
  have h2 : splitComma (' ' :: (B ++ ',' :: ' ' ::
      (C ++ ',' :: ' ' :: (N ++ [',', ' '])))) =
      (' ' :: B) :: splitComma (' ' :: (C ++ ',' :: ' ' ::
        (N ++ [',', ' ']))) :=
    splitComma_append _ (not_comma_cons_space hB)
  rw [h2]
  have h3 : splitComma (' ' :: (C ++ ',' :: ' ' :: (N ++ [',', ' ']))) =
      (' ' :: C) :: splitComma (' ' :: (N ++ [',', ' '])) :=
    splitComma_append _ (not_comma_cons_space hC)
  rw [h3]
  have h4 : splitComma (' ' :: (N ++ [',', ' '])) =
      (' ' :: N) :: splitComma [' '] :=
    splitComma_append _ (not_comma_cons_space hN)
  rw [h4]
  rfl

theorem parseRow_rowLine (p : PlayerResult)
    (hn : cleanField p.Name) (hr : cleanField p.Result) :
    parseRow (rowLine p) = some p := by
  obtain ⟨hic1, his1⟩ := intChars_not_comma_space p.OOMPoints
  obtain ⟨hic2, his2⟩ := intChars_not_comma_space p.Rank
  have hshape : rowLine p =
      padLeft 10 (intChars p.OOMPoints) ++ ',' :: ' ' ::
        (padLeft 12 (intChars p.Rank) ++ ',' :: ' ' ::
          (padLeft 8 p.Result ++ ',' :: ' ' :: (p.Name ++ [',', ' ']))) := by
    unfold rowLine
    rw [show ", ".toList = [',', ' '] from rfl]
    simp only [List.append_assoc, List.cons_append, List.nil_append]
  have hrow : splitComma (rowLine p) =
      [padLeft 10 (intChars p.OOMPoints), ' ' :: padLeft 12 (intChars p.Rank),
       ' ' :: padLeft 8 p.Result, ' ' :: p.Name, [' ']] := by
    rw [hshape]
    exact splitComma_row _ _ _ _ (pad_not_comma hic1) (pad_not_comma hic2)
      (pad_not_comma hr.1) hn.1
  unfold parseRow
  rw [hrow]
  have e0 : trimSpace (padLeft 10 (intChars p.OOMPoints)) =
      intChars p.OOMPoints := by
    rw [trim_padLeft]; exact trim_noSpace his1
  have e1 : trimSpace (' ' :: padLeft 12 (intChars p.Rank)) =
      intChars p.Rank := by
    rw [trim_space_cons, trim_padLeft]; exact trim_noSpace his2
  have e2 : trimSpace (' ' :: padLeft 8 p.Result) = p.Result := by
    rw [trim_space_cons, trim_padLeft]; exact hr.2
  have e3 : trimSpace (' ' :: p.Name) = p.Name := by
    rw [trim_space_cons]; exact hn.2
  show some ⟨trimSpace (' ' :: p.Name),
      atoiOr0 (trimSpace (padLeft 10 (intChars p.OOMPoints))),
      atoiOr0 (trimSpace (' ' :: padLeft 12 (intChars p.Rank))),
      trimSpace (' ' :: padLeft 8 p.Result)⟩ = some p
  rw [e0, e1, e2, e3, atoiOr0_intChars, atoiOr0_intChars]

theorem readRows_saved :
    ∀ (l acc : List PlayerResult),
      (∀ p ∈ l, cleanField p.Name ∧ cleanField p.Result) →
      (((acc ++ l).map PlayerResult.Name).Nodup) →
      readRows (l.map rowLine) acc = some (acc ++ l) := by
  intro l
  induction l with
  | nil => intro acc _ _; simp [readRows]
  | cons p t ih =>
      intro acc hcl hnd
      rw [List.map_cons, readRows,
          parseRow_rowLine p (hcl p (by simp)).1 (hcl p (by simp)).2]
      show readRows (t.map rowLine) (mapInsert acc p) = some (acc ++ p :: t)
      have hpn : p.Name ∉ acc.map PlayerResult.Name := by
        intro hmem
        rw [List.map_append, List.nodup_append] at hnd
        exact hnd.2.2 hmem (by simp)
      rw [mapInsert_not_mem hpn]
      have ht : readRows (t.map rowLine) (acc ++ [p]) =
          some ((acc ++ [p]) ++ t) :=
        ih (acc ++ [p]) (fun q hq => hcl q (by simp [hq]))
          (by simpa [List.append_assoc] using hnd)
      rw [ht]
      congr 1
      simp [List.append_assoc]

theorem skipComments_save (l0 : List Char) (rest : List (List Char)) :
    skipComments (('k' :: l0) :: rest) = some (('k' :: l0) :: rest) := by
  rw [skipComments]
  rw [dif_neg (by simp)]
  rw [if_neg (by simp)]

/-- Reading back the lines just written restores the competition exactly,
    for any competition whose fields survive the format. -/
theorem readCached_saveComp (c : Competition) (h : GoodComp c) :
    readCachedLines (saveCompLines c) = some c := by
  obtain ⟨hk, hn, hd, hu, hres, hnd⟩ := h
  have hskip : skipComments (saveCompLines c) = some (saveCompLines c) :=
    skipComments_save _ _
  have f1 : field2 ("key, ".toList ++ c.Key) = some c.Key :=
    @field2_label "key".toList _ (by decide) hk.1 hk.2
  have f2 : field2 ("name, ".toList ++ c.Name) = some c.Name :=
    @field2_label "name".toList _ (by decide) hn.1 hn.2
  have f3 : field2 ("date, ".toList ++ c.Date) = some c.Date :=
    @field2_label "date".toList _ (by decide) hd.1 hd.2
  have f4 : field2 ("url, ".toList ++ c.URL) = some c.URL :=
    @field2_label "url".toList _ (by decide) hu.1 hu.2
  have f5 : field2 ("number of players, ".toList ++ intChars c.NumPlayers) =
      some (intChars c.NumPlayers) :=
    @field2_label "number of players".toList _ (by decide)
      (intChars_not_comma_space c.NumPlayers).1
      (trim_noSpace (intChars_not_comma_space c.NumPlayers).2)
  have hro : readRows (List.drop 1
      ("oom_points, rank_in_comp, igresult, name - row per player".toList ::
        c.Results.map rowLine)) [] = some c.Results := by
    show readRows (c.Results.map rowLine) [] = some c.Results
    have := readRows_saved c.Results [] hres (by simpa using hnd)
    simpa using this
  unfold readCachedLines
  rw [hskip]
  show (do
    let key ← field2 ("key, ".toList ++ c.Key)
    let name ← field2 ("name, ".toList ++ c.Name)
    let date ← field2 ("date, ".toList ++ c.Date)
    let url ← field2 ("url, ".toList ++ c.URL)
    let np ← field2 ("number of players, ".toList ++ intChars c.NumPlayers)
    let rs ← readRows (List.drop 1
      ("oom_points, rank_in_comp, igresult, name - row per player".toList ::
        c.Results.map rowLine)) []
    pure { Key := key, Name := name, Date := date, URL := url,
           NumPlayers := atoiOr0 np, Results := rs }) = some c
  rw [f1, f2, f3, f4, f5, hro]
  show some (Competition.mk c.Key c.Name c.Date c.URL
    (atoiOr0 (intChars c.NumPlayers)) c.Results) = some c
  rw [atoiOr0_intChars]

/-- A concrete two-player competition for the cache round-trip theorems. -/
def compW : Competition :=
  ⟨"5462".toList, "May Medal".toList, "1 May".toList, "http://x".toList, 2,
   [⟨"Alice".toList, 2, 1, "72".toList⟩, ⟨"Bob".toList, 0, 2, "DQ".toList⟩]⟩

set_option maxRecDepth 10000 in
/-- Counterexample for C4: `saveComp` ranges over the results map, whose
    iteration order Go randomizes, so the rows of the written file may come
    out in any permutation of the results.  For the two-player competition
    `compW`, parsing the written file recovers `compW`, the reversed row
    order is an admissible range order of the parsed map (a permutation of
    its entries), and writing in that order produces different bytes: the
    program does not guarantee byte-identical
    `write(parse(write(data))) == write(data)`. -/
theorem saveComp_roundtrip_counterexample :
    readCachedLines (saveCompLines compW) = some compW ∧
    compW.Results.reverse.Perm compW.Results ∧
    saveCompLinesOrd compW compW.Results.reverse ≠ saveCompLines compW :=
  ⟨readCached_saveComp compW (by unfold GoodComp cleanField; decide),
   List.reverse_perm _, by decide⟩

/-- C4 (amended): the cache serialization round-trips up to the order of
    the player rows.  For every competition whose fields survive the format
    (`GoodComp` — exactly the image of `parse`) and every admissible range
    order `rows` of its results map (any permutation of the results),
    parsing the written file recovers the key, name, date, url and player
    count exactly, and the same player rows up to permutation; byte
    identity of a rewrite is not guaranteed, only this data-level
    stability. -/
theorem saveComp_roundtrip_amended (c : Competition)
    (rows : List PlayerResult) (h : GoodComp c)
    (hp : rows.Perm c.Results) :
    ∃ c', readCachedLines (saveCompLinesOrd c rows) = some c' ∧
      c'.Key = c.Key ∧ c'.Name = c.Name ∧ c'.Date = c.Date ∧
      c'.URL = c.URL ∧ c'.NumPlayers = c.NumPlayers ∧
      c'.Results.Perm c.Results := by
  obtain ⟨hk, hn, hd, hu, hres, hnd⟩ := h
  have h' : GoodComp ⟨c.Key, c.Name, c.Date, c.URL, c.NumPlayers, rows⟩ := by
    unfold GoodComp
    refine ⟨hk, hn, hd, hu, ?_, ?_⟩
    · intro p hp2
      exact hres p (hp.subset hp2)
    · exact ((hp.map PlayerResult.Name).nodup_iff).mpr hnd
  exact ⟨⟨c.Key, c.Name, c.Date, c.URL, c.NumPlayers, rows⟩,
    readCached_saveComp _ h', rfl, rfl, rfl, rfl, rfl, hp⟩

set_option maxRecDepth 10000 in
/-- Witness for the amended C4: the reversed row order on the concrete
    two-player competition parses back to the same data. -/
theorem saveComp_roundtrip_amended_witness :
    ∃ c', readCachedLines (saveCompLinesOrd compW compW.Results.reverse) =
        some c' ∧
      c'.Key = compW.Key ∧ c'.Name = compW.Name ∧ c'.Date = compW.Date ∧
      c'.URL = compW.URL ∧ c'.NumPlayers = compW.NumPlayers ∧
      c'.Results.Perm compW.Results :=
  saveComp_roundtrip_amended compW compW.Results.reverse
    (by unfold GoodComp cleanField; decide) (List.reverse_perm _)

/-! ### C3: cache-first population in `Load` -/

/-- C3: when the per-competition cache file `<key>.txt` exists, `Load`
    populates the competition entirely from that file (`readCachedLines` is
    a function of the file's lines alone), leaves the file store unchanged
    and performs zero network fetches; only when the file is absent does it
    fetch the live page at the descriptor's URL, parse and score it
    (`populateResultsFromWeb`), and write the cache file — one fetch. -/
theorem Load_cache_first (fs : FileStore) (web : List Char → List Char)
    (comp : Competition) (hk : comp.Key ≠ []) :
    (∀ lines, readFile fs comp.Key = some lines →
       Load fs web comp = (readCachedLines lines).map (fun c => (c, fs, 0)))
    ∧ (readFile fs comp.Key = none →
       Load fs web comp =
         (populateResultsFromWeb comp (web comp.URL)).map (fun c =>
           (c, writeFile fs c.Key (saveCompLines c), 1))) := by
  constructor
  · intro lines hl
    unfold Load
    rw [if_neg hk, hl]
  · intro hl
    unfold Load
    rw [if_neg hk, hl]

/-- The competition `Load` builds from `pageW` when nothing is cached. -/
def c3W : Competition :=
  ⟨"7".toList, [], [], [], 3,
   [⟨"Alice".toList, 3, 1, "72".toList⟩, ⟨"Bob".toList, 2, 2, "75".toList⟩,
    ⟨"Carol".toList, 0, 3, "DQ".toList⟩]⟩

set_option maxRecDepth 10000 in
/-- Witness for C3: a cache hit returns the parsed file with no fetch and
    no store change; a cache miss fetches once, populates from the page and
    writes `<key>.txt`. -/
theorem Load_cache_first_witness :
    Load [("5462".toList, saveCompLines compW)] (fun _ => [])
        ⟨"5462".toList, [], [], [], 0, []⟩ =
      some (compW, [("5462".toList, saveCompLines compW)], 0) ∧
    Load [] (fun _ => pageW) ⟨"7".toList, [], [], [], 0, []⟩ =
      some (c3W, [("7".toList, saveCompLines c3W)], 1) := by
  obtain ⟨h1, h2⟩ :=
    Load_cache_first [("5462".toList, saveCompLines compW)] (fun _ => [])
      ⟨"5462".toList, [], [], [], 0, []⟩ (by decide)
  obtain ⟨h3, h4⟩ :=
    Load_cache_first [] (fun _ => pageW) ⟨"7".toList, [], [], [], 0, []⟩
      (by decide)
  exact ⟨(h1 (saveCompLines compW) rfl).trans (by rfl), (h4 rfl).trans (by rfl)⟩

/-! ### C2: stale-cache refetch in descriptor resolution -/

theorem firstMissingKey_false_iff (c m : List Competition) :
    (firstMissingKey c m).1 = false ↔
      ∀ x ∈ c, (compLookup m x.Key).isSome = true := by
  induction c with
  | nil => simp [firstMissingKey]
  | cons a t ih =>
      rw [firstMissingKey]
      by_cases ha : (compLookup m a.Key).isSome = true
      · rw [if_pos ha]
        simp [ih, ha]
      · rw [if_neg ha]
        constructor
        · intro hc; simp at hc
        · intro hall; exact absurd (hall a (by simp)) ha

theorem firstMissingKey_true_iff (c m : List Competition) :
    (firstMissingKey c m).1 = true ↔
      ∃ x ∈ c, compLookup m x.Key = none := by
  rw [← Bool.not_eq_false, firstMissingKey_false_iff]
  push_neg
  constructor
  · rintro ⟨x, hx, hs⟩
    exact ⟨x, hx, by cases hc : compLookup m x.Key with
      | none => rfl
      | some y => rw [hc] at hs; simp at hs⟩
  · rintro ⟨x, hx, hs⟩
    exact ⟨x, hx, by rw [hs]; simp⟩

/-- The body of `FetchCompDescriptions` once the configuration and the
    cache-first listing page have been parsed. -/
theorem FetchCompDescriptions_eq (env : ListingEnv) (conf : List (List Char))
    (oomComps all : List Competition)
    (hp : parseKeysFromFile conf = some oomComps)
    (hall : parseWebComps (fetchAllCompsPage env true).1 = some all) :
    FetchCompDescriptions env conf =
      (if (firstMissingKey oomComps all).1 = true then
         if (fetchAllCompsPage env true).2 = true then
           match parseWebComps (fetchAllCompsPage env false).1 with
           | none => none
           | some all2 =>
               if (firstMissingKey oomComps all2).1 = true ∧
                   ¬((fetchAllCompsPage env false).2 = true) then none
               else some (updateComps oomComps all2, 1)
         else none
       else some (updateComps oomComps all, 0)) := by
  unfold FetchCompDescriptions
  rw [hp, hall]

/-- C2: during descriptor resolution, a requested identifier absent from the
    parsed listing mapping triggers exactly one forced live refetch and a
    retry when the listing came from cache, a fatal error when it did not;
    an identifier still missing after the forced refetch is fatal; and when
    every requested identifier is found, resolution succeeds with no fatal
    error (the returned count is the number of forced refetches). -/
theorem resolution_refetch (env : ListingEnv) (conf : List (List Char))
    (oomComps : List Competition) (all : List Competition)
    (hp : parseKeysFromFile conf = some oomComps)
    (hall : parseWebComps (fetchAllCompsPage env true).1 = some all) :
    ((∀ x ∈ oomComps, (compLookup all x.Key).isSome = true) →
       FetchCompDescriptions env conf = some (updateComps oomComps all, 0))
    ∧ ((∃ x ∈ oomComps, compLookup all x.Key = none) →
        (fetchAllCompsPage env true).2 = false →
        FetchCompDescriptions env conf = none)
    ∧ ((∃ x ∈ oomComps, compLookup all x.Key = none) →
        (fetchAllCompsPage env true).2 = true →
        ∀ all2, parseWebComps env.live = some all2 →
          ((∀ x ∈ oomComps, (compLookup all2 x.Key).isSome = true) →
             FetchCompDescriptions env conf =
               some (updateComps oomComps all2, 1))
          ∧ ((∃ x ∈ oomComps, compLookup all2 x.Key = none) →
              FetchCompDescriptions env conf = none)) := by
  have hlive : fetchAllCompsPage env false = (env.live, false) := rfl
  have hred := FetchCompDescriptions_eq env conf oomComps all hp hall
  refine ⟨?_, ?_, ?_⟩
  · intro hfound
    rw [hred]
    rw [if_neg (by
      rw [(firstMissingKey_false_iff oomComps all).mpr hfound]
      simp)]
  · intro hmiss hcache
    rw [hred]
    rw [if_pos ((firstMissingKey_true_iff oomComps all).mpr hmiss), hcache]
    rw [if_neg (by simp)]
  · intro hmiss hcache all2 hall2
    have hstep : FetchCompDescriptions env conf =
        (if (firstMissingKey oomComps all2).1 = true ∧
            ¬(((env.live, false) : List Char × Bool).2 = true) then none
         else some (updateComps oomComps all2, 1)) := by
      rw [hred, if_pos ((firstMissingKey_true_iff oomComps all).mpr hmiss),
          hcache]
      rw [if_pos rfl, hlive]
      rw [show parseWebComps ((env.live, false) :
            List Char × Bool).1 = some all2 from hall2]
    constructor
    · intro hfound2
      rw [hstep]
      rw [if_neg (by
        rw [(firstMissingKey_false_iff oomComps all2).mpr hfound2]
        simp)]
    · intro hmiss2
      rw [hstep]
      rw [if_pos ⟨(firstMissingKey_true_iff oomComps all2).mpr hmiss2,
        by simp⟩]

/-- A live listing page holding competitions 100 and 200. -/
def listW : List Char :=
  ("furniture<a href=\"competition.php?compid=100\">Spring Cup</a>" ++
   "<td>1 Jan</td><a href=\"competition.php?compid=200\">May Medal</a>" ++
   "<td>2 May</td>tail").toList

/-- A stale cached listing page holding only competition 100. -/
def cachedPageW : List Char :=
  "<a href=\"competition.php?compid=100\">Spring Cup</a><td>1 Jan</td>end".toList

/-- Listing environment: stale cache present, live page has both ids. -/
def envW : ListingEnv := ⟨some cachedPageW, listW⟩

/-- Configuration lines requesting ids 100 and 200. -/
def confW : List (List Char) :=
  ["spring, ?compid=100".toList, "may, ?compid=200".toList]

/-- The descriptors parsed from `confW`. -/
def oomW : List Competition :=
  [⟨"100".toList, [], [], [], 0, []⟩, ⟨"200".toList, [], [], [], 0, []⟩]

/-- The listing map parsed from the stale cached page. -/
def allCachedW : List Competition :=
  [⟨"100".toList, "Spring Cup".toList, "1 Jan".toList,
    compURLBase ++ "100".toList, 0, []⟩]

/-- The listing map parsed from the live page. -/
def allLiveW : List Competition :=
  [⟨"100".toList, "Spring Cup".toList, "1 Jan".toList,
    compURLBase ++ "100".toList, 0, []⟩,
   ⟨"200".toList, "May Medal".toList, "2 May".toList,
    compURLBase ++ "200".toList, 0, []⟩]

set_option maxRecDepth 10000 in
/-- Witness for C2: the spec scenario — ids 100 and 200 requested, stale
    cache holds only 100, live listing holds both: resolution succeeds with
    exactly one forced refetch. -/
theorem resolution_refetch_witness :
    FetchCompDescriptions envW confW = some (updateComps oomW allLiveW, 1) :=
  ((resolution_refetch envW confW oomW allCachedW (by decide)
      (by decide)).2.2 (by decide) (by decide) allLiveW (by decide)).1
    (by decide)

/-! ### C8: frame effect of the descriptor update step -/

theorem any_key_eq (m : List Competition) (k : List Char) :
    m.any (fun q => q.Key = k) = true ↔ k ∈ m.map Competition.Key := by
  induction m with
  | nil => simp
  | cons a t ih =>
      simp only [List.any_cons, Bool.or_eq_true, decide_eq_true_eq, ih,
        List.map_cons, List.mem_cons]
      constructor
      · rintro (h | h)
        · exact Or.inl h.symm
        · exact Or.inr h
      · rintro (h | h)
        · exact Or.inl h.symm
        · exact Or.inr h

theorem keys_map_replace (m : List Competition) (c : Competition) :
    ((m.map (fun q => if q.Key = c.Key then c else q)).map Competition.Key)
      = m.map Competition.Key := by
  induction m with
  | nil => rfl
  | cons a t ih =>
      simp only [List.map_cons, ih, List.cons.injEq, and_true]
      by_cases ha : a.Key = c.Key
      · simp [ha]
      · simp [ha]

theorem compInsert_keys_nodup {m : List Competition} {c : Competition}
    (h : (m.map Competition.Key).Nodup) :
    ((compInsert m c).map Competition.Key).Nodup := by
  unfold compInsert
  by_cases hmem : c.Key ∈ m.map Competition.Key
  · rw [if_pos ((any_key_eq m c.Key).mpr hmem), keys_map_replace]
    exact h
  · rw [if_neg (fun hc => hmem ((any_key_eq m c.Key).mp hc))]
    rw [List.map_append, List.nodup_append]
    refine ⟨h, by simp, ?_⟩
    intro x hx hx'
    simp only [List.map_singleton, List.mem_singleton] at hx'
    subst hx'
    exact hmem hx

theorem parseWebCompsAux_nodup :
    ∀ (fuel : Nat) (s : List Char) (acc : List Competition),
      (acc.map Competition.Key).Nodup →
      ∀ res, parseWebCompsAux fuel s acc = some res →
        (res.map Competition.Key).Nodup := by
  intro fuel
  induction fuel with
  | zero => intro s acc _ res h; simp [parseWebCompsAux] at h
  | succ fuel ih =>
      intro s acc hacc res h
      cases h1 : tokenStart s compidTok with
      | none =>
          rw [parseWebCompsAux, h1] at h
          simp only [Option.some.injEq] at h
          rw [← h]
          exact hacc
      | some start =>
          rw [parseWebCompsAux, h1] at h
          simp only [Option.bind_eq_some] at h
          obtain ⟨e1, _, st2, _, e2, _, st3, _, e3, _, h⟩ := h
          exact ih _ _ (compInsert_keys_nodup hacc) res h

theorem parseWebComps_nodup {s : List Char} {res : List Competition}
    (h : parseWebComps s = some res) :
    (res.map Competition.Key).Nodup :=
  parseWebCompsAux_nodup _ s [] (by simp) res h

theorem foldl_updStep_no_match (c0 : Competition) :
    ∀ (l : List Competition) (acc : Competition),
      (∀ x ∈ l, ¬(c0.Key = x.Key)) → l.foldl (updStep c0) acc = acc := by
  intro l
  induction l with
  | nil => intro acc _; rfl
  | cons a t ih =>
      intro acc hl
      rw [List.foldl_cons,
          show updStep c0 acc a = acc from by
            unfold updStep; rw [if_neg (hl a (by simp))]]
      exact ih acc (fun x hx => hl x (by simp [hx]))

theorem updateOne_spec (all : List Competition) (c0 comp : Competition)
    (huniq : (all.map Competition.Key).Nodup)
    (hfound : compLookup all c0.Key = some comp) :
    updateOne all c0 =
      { c0 with Name := comp.Name, Date := comp.Date,
                URL := if c0.URL = [] then comp.URL ++ sortSuffix
                       else c0.URL } := by
  unfold compLookup at hfound
  rw [List.find?_eq_some] at hfound
  obtain ⟨hp, as, bs, hsplit, hpre⟩ := hfound
  simp only [decide_eq_true_eq] at hp
  unfold updateOne
  rw [hsplit, List.foldl_append, List.foldl_cons]
  have h1 : as.foldl (updStep c0) c0 = c0 := by
    apply foldl_updStep_no_match
    intro x hx hc
    have := hpre x hx
    simp only [Bool.not_eq_eq_eq_not, Bool.not_true, decide_eq_false_iff_not]
      at this
    exact this hc.symm
  rw [h1,
      show updStep c0 c0 comp =
        { c0 with Name := comp.Name, Date := comp.Date,
                  URL := if c0.URL = [] then comp.URL ++ sortSuffix
                         else c0.URL } from by
        unfold updStep; rw [if_pos hp.symm]]
  apply foldl_updStep_no_match
  intro x hx hc
  rw [hsplit] at huniq
  simp only [List.map_append, List.map_cons, List.nodup_append,
    List.nodup_cons] at huniq
  exact huniq.2.1.1 (List.mem_map.mpr ⟨x, hx, (hp.trans hc).symm⟩)

theorem updateComps_entry (oomComps all : List Competition)
    (hnd : (all.map Competition.Key).Nodup)
    (hfound : ∀ x ∈ oomComps, (compLookup all x.Key).isSome = true) :
    ∀ i (hi : i < oomComps.length), ∃ comp,
      compLookup all ((oomComps.get ⟨i, hi⟩).Key) = some comp ∧
      (updateComps oomComps all)[i]? =
        some { oomComps.get ⟨i, hi⟩ with
               Name := comp.Name, Date := comp.Date,
               URL := if (oomComps.get ⟨i, hi⟩).URL = [] then
                        comp.URL ++ sortSuffix
                      else (oomComps.get ⟨i, hi⟩).URL } := by
  intro i hi
  have hx := hfound (oomComps.get ⟨i, hi⟩) (oomComps.get_mem i hi)
  obtain ⟨comp, hcomp⟩ := Option.isSome_iff_exists.mp hx
  refine ⟨comp, hcomp, ?_⟩
  unfold updateComps
  rw [List.getElem?_map,
      show oomComps[i]? = some (oomComps.get ⟨i, hi⟩) from by
        rw [List.getElem?_eq_getElem hi]; rfl,
      Option.map_some', updateOne_spec all _ comp hnd hcomp]

/-- C8: after successful resolution, every requested descriptor keeps its
    key, and a caller-supplied URL is kept unchanged, while a descriptor
    without one gets the matching listing entry's URL appended with the
    fixed ranking-mode suffix `&sort=1`; name and date are filled from the
    listing in both cases. -/
theorem resolution_updates_descriptors (env : ListingEnv)
    (conf : List (List Char)) (res : List Competition) (k : Nat)
    (h : FetchCompDescriptions env conf = some (res, k)) :
    ∃ oomComps all, parseKeysFromFile conf = some oomComps ∧
      (all.map Competition.Key).Nodup ∧
      res = updateComps oomComps all ∧
      ∀ i (hi : i < oomComps.length), ∃ comp,
        compLookup all ((oomComps.get ⟨i, hi⟩).Key) = some comp ∧
        res[i]? = some { oomComps.get ⟨i, hi⟩ with
          Name := comp.Name, Date := comp.Date,
          URL := if (oomComps.get ⟨i, hi⟩).URL = [] then
                   comp.URL ++ sortSuffix
                 else (oomComps.get ⟨i, hi⟩).URL } := by
  cases hp : parseKeysFromFile conf with
  | none =>
      have hno : FetchCompDescriptions env conf = none := by
        unfold FetchCompDescriptions
        rw [hp]
      rw [hno] at h
      simp at h
  | some oomComps =>
      cases hall : parseWebComps (fetchAllCompsPage env true).1 with
      | none =>
          have hno : FetchCompDescriptions env conf = none := by
            unfold FetchCompDescriptions
            rw [hp, hall]
          rw [hno] at h
          simp at h
      | some all =>
          obtain ⟨r1, r2, r3⟩ := resolution_refetch env conf oomComps all
            hp hall
          by_cases hm : ∀ x ∈ oomComps, (compLookup all x.Key).isSome = true
          · have heq := (r1 hm).symm.trans h
            simp only [Option.some.injEq, Prod.mk.injEq] at heq
            refine ⟨oomComps, all, rfl, parseWebComps_nodup hall,
              heq.1.symm, ?_⟩
            intro i hi
            obtain ⟨comp, hcomp, hval⟩ :=
              updateComps_entry oomComps all (parseWebComps_nodup hall) hm i hi
            exact ⟨comp, hcomp, by rw [heq.1] at hval; exact hval⟩
          · have hmiss : ∃ x ∈ oomComps, compLookup all x.Key = none := by
              push_neg at hm
              obtain ⟨x, hx, hs⟩ := hm
              exact ⟨x, hx, by
                cases hc : compLookup all x.Key with
                | none => rfl
                | some y => rw [hc] at hs; simp at hs⟩
            cases hc : (fetchAllCompsPage env true).2 with
            | false =>
                rw [r2 hmiss hc] at h
                simp at h
            | true =>
                cases hall2 : parseWebComps env.live with
                | none =>
                    have hno : FetchCompDescriptions env conf = none := by
                      rw [FetchCompDescriptions_eq env conf oomComps all
                          hp hall]
                      rw [if_pos ((firstMissingKey_true_iff oomComps
                            all).mpr hmiss), hc]
                      rw [if_pos rfl]
                      rw [show fetchAllCompsPage env false =
                            ((env.live, false) : List Char × Bool) from rfl]
                      rw [show parseWebComps ((env.live, false) :
                            List Char × Bool).1 = none from hall2]
                    rw [hno] at h
                    simp at h
                | some all2 =>
                    obtain ⟨r31, r32⟩ := r3 hmiss hc all2 hall2
                    by_cases hm2 : ∀ x ∈ oomComps,
                        (compLookup all2 x.Key).isSome = true
                    · have heq := (r31 hm2).symm.trans h
                      simp only [Option.some.injEq, Prod.mk.injEq] at heq
                      refine ⟨oomComps, all2, rfl,
                        parseWebComps_nodup hall2, heq.1.symm, ?_⟩
                      intro i hi
                      obtain ⟨comp, hcomp, hval⟩ :=
                        updateComps_entry oomComps all2
                          (parseWebComps_nodup hall2) hm2 i hi
                      exact ⟨comp, hcomp, by rw [heq.1] at hval; exact hval⟩
                    · have hmiss2 : ∃ x ∈ oomComps,
                          compLookup all2 x.Key = none := by
                        push_neg at hm2
                        obtain ⟨x, hx, hs⟩ := hm2
                        exact ⟨x, hx, by
                          cases hc2 : compLookup all2 x.Key with
                          | none => rfl
                          | some y => rw [hc2] at hs; simp at hs⟩
                      rw [r32 hmiss2] at h
                      simp at h

/-- Configuration lines: id 100 with a caller-supplied http URL, id 200
    without one. -/
def conf2W : List (List Char) :=
  ["champ, http://site/x?compid=100".toList, "may, ?compid=200".toList]

/-- Listing environment with no cache and a live page holding both ids. -/
def env2W : ListingEnv := ⟨none, listW⟩

/-- The resolved descriptors: 100 keeps the caller's URL, 200 receives the
    listing URL with the `&sort=1` suffix. -/
def res2W : List Competition :=
  [⟨"100".toList, "Spring Cup".toList, "1 Jan".toList,
    "http://site/x?compid=100".toList, 0, []⟩,
   ⟨"200".toList, "May Medal".toList, "2 May".toList,
    compURLBase ++ "200".toList ++ sortSuffix, 0, []⟩]

set_option maxRecDepth 10000 in
/-- Witness for C8: one descriptor with a caller URL (kept) and one
    without (listing URL plus suffix), both with name and date filled. -/
theorem resolution_updates_descriptors_witness :
    ∃ oomComps all, parseKeysFromFile conf2W = some oomComps ∧
      (all.map Competition.Key).Nodup ∧
      res2W = updateComps oomComps all ∧
      ∀ i (hi : i < oomComps.length), ∃ comp,
        compLookup all ((oomComps.get ⟨i, hi⟩).Key) = some comp ∧
        res2W[i]? = some { oomComps.get ⟨i, hi⟩ with
          Name := comp.Name, Date := comp.Date,
          URL := if (oomComps.get ⟨i, hi⟩).URL = [] then
                   comp.URL ++ sortSuffix
                 else (oomComps.get ⟨i, hi⟩).URL } :=
  resolution_updates_descriptors env2W conf2W res2W 0 (by decide)

/-! ### C5: configuration-line parsing -/

/-- The recognizable identifier of a configuration line: the nonempty digit
    run after `?compid=`, when present. -/
def lineKey (l : List Char) : Option (List Char) :=
  match parseNextCompKey l 0 with
  | none => none
  | some (k, _) => if k = [] then none else some k

/-- The descriptor a configuration line yields (for lines that parse):
    its key, plus the second comma field as URL when that field parses
    with scheme `http`. -/
def descOfLine (l : List Char) : Option Competition :=
  (lineKey l).map (fun k =>
    { Key := k, Name := [], Date := [],
      URL := match splitComma l with
             | _ :: f :: _ =>
                 if urlIsHttp (trimSpace f) then trimSpace f else []
             | _ => [],
      NumPlayers := 0, Results := [] })

/-- Counterexample for C5: a configuration line holding the identifier
    `?compid=123` but no comma makes `parseKeysFromFile` die
    (`strings.Split(line, ",")[1]` panics — index out of range), so no
    descriptor is produced: the trailing comma is not optional. -/
theorem parseKeys_no_comma_counterexample :
    parseKeysFromFile ["?compid=123".toList] = none := by decide

/-- C5 (amended): every configuration line containing an identifier
    `?compid=<digits>` must also contain a comma (the parser
    unconditionally reads the line's second comma field); given that,
    parsing yields one descriptor per such line with that key — the URL
    populated only when the second comma field is a valid http URL — and
    every line without a recognizable identifier is ignored without
    error. -/
theorem parseKeysFromFile_amended (lines : List (List Char))
    (h : ∀ l ∈ lines, lineKey l ≠ none → 2 ≤ (splitComma l).length) :
    parseKeysFromFile lines = some (lines.filterMap descOfLine) := by
  induction lines with
  | nil => rfl
  | cons l rest ih =>
      have hrest := ih (fun x hx => h x (by simp [hx]))
      cases hpk : parseNextCompKey l 0 with
      | none =>
          have hdl : descOfLine l = none := by
            simp [descOfLine, lineKey, hpk]
          rw [parseKeysFromFile, hrest, hpk]
          simp [List.filterMap_cons, hdl]
      | some ke =>
          obtain ⟨k, e⟩ := ke
          by_cases hk : k = []
          · subst hk
            have hdl : descOfLine l = none := by
              simp [descOfLine, lineKey, hpk]
            rw [parseKeysFromFile, hrest, hpk]
            simp [List.filterMap_cons, hdl]
          · have hne : lineKey l ≠ none := by simp [lineKey, hpk, hk]
            have hlen := h l (by simp) hne
            cases hsp : splitComma l with
            | nil => rw [hsp] at hlen; simp at hlen
            | cons f0 t =>
                cases t with
                | nil => rw [hsp] at hlen; simp at hlen
                | cons f1 t' =>
                    have hdl : descOfLine l = some
                        ⟨k, [], [],
                         if urlIsHttp (trimSpace f1) then trimSpace f1
                         else [], 0, []⟩ := by
                      simp [descOfLine, lineKey, hpk, hk, hsp]
                    rw [parseKeysFromFile, hrest, hpk]
                    simp [List.filterMap_cons, hdl, hk, hsp]

set_option maxRecDepth 10000 in
/-- Witness for the amended C5: a line with a name and key, a line with a
    caller URL, and an id-free line parse into two descriptors. -/
theorem parseKeysFromFile_amended_witness :
    parseKeysFromFile
        ["spring, ?compid=100".toList,
         "champ, http://site/x?compid=200".toList,
         "no identifier here".toList] =
      some (["spring, ?compid=100".toList,
             "champ, http://site/x?compid=200".toList,
             "no identifier here".toList].filterMap descOfLine) :=
  parseKeysFromFile_amended _ (by decide)

/-! ### C9: bounded concurrency and the join point -/

/-- The worker still holds its `slots` token. -/
def notReleased : WStage → Bool
  | WStage.released => false
  | _ => true

/-- The worker has sent its message on `completed`. -/
def pastSend : WStage → Bool
  | WStage.signaled => true
  | WStage.released => true
  | _ => false

theorem countP_set_eq {α : Type} (p : α → Bool) :
    ∀ (l : List α) (i : Nat) (x y : α), l.get? i = some y →
      (l.set i x).countP p + (if p y then 1 else 0) =
        l.countP p + (if p x then 1 else 0) := by
  intro l
  induction l with
  | nil => intro i x y h; simp at h
  | cons a t ih =>
      intro i x y h
      cases i with
      | zero =>
          simp only [List.get?, Option.some.injEq] at h
          subst h
          simp only [List.set, List.countP_cons]
          omega
      | succ i =>
          simp only [List.get?] at h
          have hih := ih i x y h
          simp only [List.set, List.countP_cons]
          omega

/-- The inductive invariant of the loader: the tokens in `slots` are
    exactly the workers that have not yet released theirs (hence at most 10
    of those), the messages on `completed` are exactly the workers past
    their send, and the main goroutine never receives more than was sent. -/
def SysInv (n : Nat) (s : SysState) : Prop :=
  s.workers.length ≤ n ∧
  s.slots = s.workers.countP notReleased ∧
  s.slots ≤ 10 ∧
  s.compSent = s.workers.countP pastSend ∧
  s.joined ≤ s.compSent

theorem SysInv_init (n : Nat) : SysInv n initState := by
  refine ⟨?_, ?_, ?_, ?_, ?_⟩ <;> simp [initState]

theorem SysInv_step {n : Nat} {s s' : SysState} (hinv : SysInv n s)
    (hstep : Step n s s') : SysInv n s' := by
  obtain ⟨hlen, hslots, hcap, hsent, hjoin⟩ := hinv
  cases hstep with
  | dispatch h1 h2 =>
      refine ⟨?_, ?_, ?_, ?_, ?_⟩
      · show (s.workers ++ [WStage.idle]).length ≤ n
        rw [List.length_append]
        simp only [List.length_cons, List.length_nil]
        omega
      · show s.slots + 1 = (s.workers ++ [WStage.idle]).countP notReleased
        rw [List.countP_append]
        simp [List.countP_cons, notReleased]
        omega
      · show s.slots + 1 ≤ 10
        omega
      · show s.compSent = (s.workers ++ [WStage.idle]).countP pastSend
        rw [List.countP_append]
        simp [List.countP_cons, pastSend]
        omega
      · exact hjoin
  | start i h =>
      have e1 := countP_set_eq notReleased s.workers i
        WStage.loading WStage.idle h
      have e2 := countP_set_eq pastSend s.workers i
        WStage.loading WStage.idle h
      simp [notReleased, pastSend] at e1 e2
      refine ⟨?_, ?_, ?_, ?_, ?_⟩
      · show (s.workers.set i WStage.loading).length ≤ n
        rw [List.length_set]
        exact hlen
      · show s.slots = (s.workers.set i WStage.loading).countP notReleased
        omega
      · exact hcap
      · show s.compSent = (s.workers.set i WStage.loading).countP pastSend
        omega
      · exact hjoin
  | finish i h =>
      have e1 := countP_set_eq notReleased s.workers i
        WStage.loaded WStage.loading h
      have e2 := countP_set_eq pastSend s.workers i
        WStage.loaded WStage.loading h
      simp [notReleased, pastSend] at e1 e2
      refine ⟨?_, ?_, ?_, ?_, ?_⟩
      · show (s.workers.set i WStage.loaded).length ≤ n
        rw [List.length_set]
        exact hlen
      · show s.slots = (s.workers.set i WStage.loaded).countP notReleased
        omega
      · exact hcap
      · show s.compSent = (s.workers.set i WStage.loaded).countP pastSend
        omega
      · exact hjoin
  | signal i h =>
      have e1 := countP_set_eq notReleased s.workers i
        WStage.signaled WStage.loaded h
      have e2 := countP_set_eq pastSend s.workers i
        WStage.signaled WStage.loaded h
      simp [notReleased, pastSend] at e1 e2
      refine ⟨?_, ?_, ?_, ?_, ?_⟩
      · show (s.workers.set i WStage.signaled).length ≤ n
        rw [List.length_set]
        exact hlen
      · show s.slots = (s.workers.set i WStage.signaled).countP notReleased
        omega
      · exact hcap
      · show s.compSent + 1 = (s.workers.set i WStage.signaled).countP pastSend
        omega
      · show s.joined ≤ s.compSent + 1
        omega
  | release i h hs =>
      have e1 := countP_set_eq notReleased s.workers i
        WStage.released WStage.signaled h
      have e2 := countP_set_eq pastSend s.workers i
        WStage.released WStage.signaled h
      simp [notReleased, pastSend] at e1 e2
      refine ⟨?_, ?_, ?_, ?_, ?_⟩
      · show (s.workers.set i WStage.released).length ≤ n
        rw [List.length_set]
        exact hlen
      · show s.slots - 1 = (s.workers.set i WStage.released).countP notReleased
        omega
      · show s.slots - 1 ≤ 10
        omega
      · show s.compSent = (s.workers.set i WStage.released).countP pastSend
        omega
      · exact hjoin
  | join h1 h2 =>
      refine ⟨hlen, hslots, hcap, hsent, ?_⟩
      show s.joined + 1 ≤ s.compSent
      omega

theorem reachable_inv {n : Nat} {s : SysState} (h : Reachable n s) :
    SysInv n s := by
  induction h with
  | refl => exact SysInv_init n
  | tail _ hstep ih => exact SysInv_step ih hstep

/-- C9: in every reachable state of the loader with `n` dispatched
    competitions and the admission gate of capacity 10, at most 10 fetch
    operations (`Load` calls) are in flight, and once the main goroutine is
    past the join point all `n` workers were dispatched and each has
    completed its load (it is at or past its completion send). -/
theorem loader_bounded_and_joins (n : Nat) (s : SysState)
    (h : Reachable n s) :
    inFlight s ≤ 10 ∧
    (pastJoin n s → s.workers.length = n ∧
      ∀ w ∈ s.workers, w = WStage.signaled ∨ w = WStage.released) := by
  obtain ⟨hlen, hslots, hcap, hsent, hjoin⟩ := reachable_inv h
  constructor
  · have hmono : inFlight s ≤ s.workers.countP notReleased := by
      apply List.countP_mono_left
      intro w _ hw
      simp only [decide_eq_true_eq] at hw
      subst hw
      rfl
    omega
  · intro hj
    unfold pastJoin at hj
    have hc : s.workers.countP pastSend ≤ s.workers.length :=
      List.countP_le_length pastSend
    have hlen2 : s.workers.length = n := by omega
    refine ⟨hlen2, ?_⟩
    have hall : s.workers.countP pastSend = s.workers.length := by omega
    intro w hw
    have hpw := List.countP_eq_length.mp hall w hw
    cases w <;> simp [pastSend] at hpw ⊢

/-- Witness for C9: the initial state of a 50-competition run is reachable
    and satisfies the bound. -/
theorem loader_bounded_and_joins_witness :
    inFlight initState ≤ 10 ∧
    (pastJoin 50 initState → initState.workers.length = 50 ∧
      ∀ w ∈ initState.workers,
        w = WStage.signaled ∨ w = WStage.released) :=
  loader_bounded_and_joins 50 initState Relation.ReflTransGen.refl

end OOM
